import Mathlib

/-!
Shallow embedding of the doxa active-record ORM core: the transaction record
cache, the table-join resolver and SQL query builder, and the computed-field
dependency engine (packages models and models/security of the repository).

Go maps are embedded as association lists (insertion ordered, first match
wins) or, for the global many-to-many link sets, as finitely supported
functions into Finset.  Go interface values become the Value inductive,
machine int64 ids become Int, and panics become the none of an Option result.
Models and fields are flattened into name-keyed registries, following the
design of the schema registry.
-/

namespace Doxa

/-- Values held in cache entries and field maps: the embedding of the Go
interface-typed values the models package manipulates.  vNull is the nil
interface, vInts an []int64 slice, vSet a RecordSet value of which only the
underlying id collection is observed. -/
inductive Value where
  | vNull : Value
  | vInt (n : Int) : Value
  | vBool (b : Bool) : Value
  | vStr (s : String) : Value
  | vInts (l : List Int) : Value
  | vSet (s : Finset Int) : Value
deriving DecidableEq

/-- The semantic field kinds of the fieldtype package. -/
inductive FieldType where
  | noType | binary | boolean | char | date | dateTime | float | html
  | integer | many2Many | many2One | one2Many | one2One | rev2One
  | selection | text
deriving DecidableEq

/-- Modelled from the spec: the fieldtype package (not under src) classifies
the kinds whose column holds the foreign key itself (many-to-one and
one-to-one) as FK relation types. -/
def FieldType.IsFKRelationType : FieldType → Bool
  | .many2One => true
  | .one2One => true
  | _ => false

/-- The many-to-many link structure attached to a Many2Many field, flattening
the link Model produced by createM2MRelModelInfo: the link model and table
names and the two endpoint key fields (name and storage column). -/
structure M2MInfo where
  relModelName : String
  relTableName : String
  ourFieldName : String
  theirFieldName : String
  ourFieldJSON : String
  theirFieldJSON : String
deriving DecidableEq

/-- The attributes of a Field used by the embedded operations.  Related
models are referenced by name and resolved through the registry. -/
structure Field where
  name : String
  json : String
  fieldType : FieldType
  required : Bool := false
  stored : Bool := false
  compute : String := ""
  inverse : String := ""
  relatedModelName : Option String := none
  reverseFK : String := ""
  jsonReverseFK : String := ""
  m2m : Option M2MInfo := none
deriving DecidableEq

/-- A Model owns a name-unique field collection and a storage table name. -/
structure Model where
  name : String
  tableName : String
  fields : List Field
deriving DecidableEq

/-- The process-wide model registry, flattened to a name-keyed list. -/
abbrev Registry := List Model

def findModel (reg : Registry) (n : String) : Option Model :=
  reg.find? (fun m => m.name == n)

/-- Field lookup in a model's collection.  The Go FieldsCollection Get and
MustGet (not under src) accept the field name or its json storage name;
MustGet panics on absence, which is none here. -/
def Model.MustGet (m : Model) (k : String) : Option Field :=
  m.fields.find? (fun f => f.json == k || f.name == k)

/-- Accessors defaulting the m2m link structure; the Go code dereferences
these pointers only on Many2Many fields, where they are always set. -/
def Field.m2mRelModelName (f : Field) : String :=
  (f.m2m.map M2MInfo.relModelName).getD ""

def Field.m2mRelTableName (f : Field) : String :=
  (f.m2m.map M2MInfo.relTableName).getD ""

def Field.m2mOurFieldName (f : Field) : String :=
  (f.m2m.map M2MInfo.ourFieldName).getD ""

def Field.m2mTheirFieldName (f : Field) : String :=
  (f.m2m.map M2MInfo.theirFieldName).getD ""

def Field.m2mOurFieldJSON (f : Field) : String :=
  (f.m2m.map M2MInfo.ourFieldJSON).getD ""

def Field.m2mTheirFieldJSON (f : Field) : String :=
  (f.m2m.map M2MInfo.theirFieldJSON).getD ""

/-- Association-list embedding of a Go map read: value of the first entry
with the given key. -/
def mapGet {K V : Type} [BEq K] (m : List (K × V)) (k : K) : Option V :=
  (m.find? (fun p => p.1 == k)).map (fun p => p.2)

/-- Association-list embedding of a Go map write: replace in place, else
append. -/
def mapSet {K V : Type} [BEq K] (m : List (K × V)) (k : K) (v : V) :
    List (K × V) :=
  match m with
  | [] => [(k, v)]
  | p :: rest => if p.1 == k then (k, v) :: rest else p :: mapSet rest k v

/-- Association-list embedding of the Go delete builtin. -/
def mapDel {K V : Type} [BEq K] (m : List (K × V)) (k : K) : List (K × V) :=
  m.filter (fun p => !(p.1 == k))

def mapHas {K V : Type} [BEq K] (m : List (K × V)) (k : K) : Bool :=
  (mapGet m k).isSome

/-- A cache entry or a write payload: field json name to value. -/
abbrev FieldMap := List (String × Value)

/-- A cacheRef is a key to find a record in a cache; the Model pointer is
flattened to the model name. -/
structure cacheRef where
  model : String
  id : Int
deriving DecidableEq

/-- A cache holds record field values; m2mLinks stores the global
many-to-many membership, one unordered set of two-slot id pairs per link
model. -/
structure cache where
  data : List (cacheRef × FieldMap)
  m2mLinks : String → Finset (Int × Int)

def newCache : cache := ⟨[], fun _ => ∅⟩

/-- Replace the record data of a cache: the record-update expression of the
Go map writes, named so proofs and statements can refer to it. -/
def cache.setData (c : cache) (d : List (cacheRef × FieldMap)) : cache :=
  { c with data := d }

/-- Go strings.Compare on the two character sequences: -1, 0 or 1.  Go
compares UTF-8 bytes; UTF-8 preserves code point order, so the code point
comparison is the same order. -/
def goCompareChars : List Char → List Char → Int
  | [], [] => 0
  | [], _ :: _ => -1
  | _ :: _, [] => 1
  | a :: as, b :: bs =>
    if a.toNat < b.toNat then -1
    else if b.toNat < a.toNat then 1
    else goCompareChars as bs

def goCompare (a b : String) : Int := goCompareChars a.toList b.toList

/-- The slot of the "our" endpoint in a two-slot link pair:
(strings.Compare(ourName, theirName) + 1) / 2. -/
def Field.ourIndex (fi : Field) : Nat :=
  ((goCompare fi.m2mOurFieldName fi.m2mTheirFieldName + 1) / 2).toNat

/-- Read slot i of a [2]int64 link pair. -/
def linkSlot (l : Int × Int) (i : Nat) : Int :=
  if i = 0 then l.1 else l.2

/-- Build a link pair with id in slot ourIdx and val in the other slot. -/
def mkLink (ourIdx : Nat) (id val : Int) : Int × Int :=
  if ourIdx = 0 then (id, val) else (val, id)

/-- removeM2MLinks removes all M2M links associated with the record with the
given id on the given field. -/
def cache.removeM2MLinks (c : cache) (fi : Field) (id : Int) : cache :=
  let idx := fi.ourIndex
  { c with m2mLinks := fun rel =>
      if rel = fi.m2mRelModelName then
        (c.m2mLinks rel).filter (fun l => linkSlot l idx ≠ id)
      else c.m2mLinks rel }

/-- addM2MLink adds an M2M link between this record with its given id and the
records given by values on the given field. -/
def cache.addM2MLink (c : cache) (fi : Field) (id : Int) (values : List Int) :
    cache :=
  let idx := fi.ourIndex
  { c with m2mLinks := fun rel =>
      if rel = fi.m2mRelModelName then
        c.m2mLinks rel ∪ (values.map (fun v => mkLink idx id v)).toFinset
      else c.m2mLinks rel }

/-- getM2MLinks returns the linked ids to this id through the given field
(an unordered Go slice, embedded as the id set). -/
def cache.getM2MLinks (c : cache) (fi : Field) (id : Int) : Finset Int :=
  let idx := fi.ourIndex
  let theirIdx := (idx + 1) % 2
  ((c.m2mLinks fi.m2mRelModelName).filter (fun l => linkSlot l idx = id)).image
    (fun l => linkSlot l theirIdx)

/-- Result of getRelatedRef: err is the returned "requested value not in
cache" error, ok carries the resolved ref and final field name. -/
inductive RefRes where
  | err : RefRes
  | ok (ref : cacheRef) (fname : String) : RefRes
deriving DecidableEq

/-- Modelled from the spec: getRelatedModelInfo (not under src) resolves the
related Model of a relation field through the schema registry, a fatal
schema error (none) when the field is unknown or not a relation. -/
def getRelatedModelInfo (reg : Registry) (mi : Model) (expr : String) :
    Option Model :=
  match mi.MustGet expr with
  | none => none
  | some fi =>
    match fi.relatedModelName with
    | none => none
    | some rn => findModel reg rn

/-- The field-type switch of get for an already resolved cacheRef and field
json name: derived scans for one2many and rev2one, the global link set for
many2many, the stored entry value otherwise, vNull for a missing value.
In the source this is the body of get on a single-segment path, extracted
here so the hop resolution of getRelatedRef stays structurally recursive. -/
def cache.getByRef (reg : Registry) (c : cache) (ref : cacheRef)
    (fname : String) : Option Value :=
  match findModel reg ref.model with
  | none => none
  | some rmod =>
    match rmod.MustGet fname with
    | none => none
    | some fi =>
      match fi.fieldType with
      | .one2Many =>
        some (.vInts ((c.data.filter (fun p =>
          p.1.model == fi.relatedModelName.getD "" &&
          mapGet p.2 fi.jsonReverseFK == some (.vInt ref.id))).map
            (fun p => p.1.id)))
      | .rev2One =>
        match c.data.find? (fun p =>
            p.1.model == fi.relatedModelName.getD "" &&
            mapGet p.2 fi.jsonReverseFK == some (.vInt ref.id)) with
        | some p => some (.vInt p.1.id)
        | none => some .vNull
      | .many2Many => some (.vSet (cache.getM2MLinks c fi ref.id))
      | _ => some ((mapGet ((mapGet c.data ref).getD []) fname).getD .vNull)

/-- getRelatedRef returns the cacheRef and field name of the field defined by
path when walking from the given model with the given id, following cached
foreign keys hop by hop; the single-segment get of each hop resolves
immediately to getByRef on the current record. -/
def cache.getRelatedRef (reg : Registry) (c : cache) (mi : Model) (id : Int) :
    List String → Option RefRes
  | [] => some .err
  | [e] => some (.ok ⟨mi.name, id⟩ e)
  | e :: r :: rest =>
    match getRelatedModelInfo reg mi e with
    | none => none
    | some relMI =>
      match cache.getByRef reg c ⟨mi.name, id⟩ e with
      | none => none
      | some (.vInt fkID) => cache.getRelatedRef reg c relMI fkID (r :: rest)
      | some _ => some .err

/-- get returns the cache value of the given field path for the given model
and id: nil (vNull) when the value cannot be found.  Paths are lists of
storage names (jsonizeExpr, not under src, normalizes names to json). -/
def cache.get (reg : Registry) (c : cache) (mi : Model) (id : Int)
    (path : List String) : Option Value :=
  match cache.getRelatedRef reg c mi id path with
  | none => none
  | some .err => some .vNull
  | some (.ok ref fname) => cache.getByRef reg c ref fname

/-- One step of checkIfInCache: availability of one field path for one id. -/
def cache.checkOne (reg : Registry) (c : cache) (mi : Model) (id : Int)
    (fName : List String) : Option Bool :=
  match cache.getRelatedRef reg c mi id fName with
  | none => none
  | some .err => some false
  | some (.ok ref p) => some (mapHas ((mapGet c.data ref).getD []) p)

def cache.checkFields (reg : Registry) (c : cache) (mi : Model) (id : Int) :
    List (List String) → Option Bool
  | [] => some true
  | f :: rest =>
    match cache.checkOne reg c mi id f with
    | none => none
    | some false => some false
    | some true => cache.checkFields reg c mi id rest

def cache.checkIds (reg : Registry) (c : cache) (mi : Model)
    (fieldNames : List (List String)) : List Int → Option Bool
  | [] => some true
  | id :: rest =>
    match cache.checkFields reg c mi id fieldNames with
    | none => none
    | some false => some false
    | some true => cache.checkIds reg c mi fieldNames rest

/-- checkIfInCache returns true if all given field paths are available in
cache for all records with the given ids in the given model. -/
def cache.checkIfInCache (reg : Registry) (c : cache) (mi : Model)
    (ids : List Int) (fieldNames : List (List String)) : Option Bool :=
  if ids.isEmpty then some false
  else cache.checkIds reg c mi fieldNames ids

/-- updateEntryByRef creates or updates an entry from a cacheRef and a field
json name: on first touch the entry is created holding the id binding;
one2many and rev2one values update the reverse FK on each referenced record
and store a true presence sentinel; many2many values replace the link set
for this record; other values are stored directly.  The nested updateEntry
calls of the source carry a single-segment path (the reverse FK column), so
they resolve directly to the recursive by-ref update; fuel bounds that
recursion, unbounded in Go only for ill-formed schemas, and none is a
panic. -/
def cache.updateEntryByRef (fuel : Nat) (reg : Registry) (c : cache)
    (ref : cacheRef) (jsonName : String) (value : Value) : Option cache :=
  match fuel with
  | 0 => none
  | fuel + 1 =>
    let c := if mapHas c.data ref then c else
      cache.setData c (mapSet c.data ref [("id", .vInt ref.id)])
    match findModel reg ref.model with
    | none => none
    | some rmod =>
      match rmod.MustGet jsonName with
      | none => none
      | some fi =>
        match fi.fieldType with
        | .one2Many =>
          match value with
          | .vInts ids =>
            match findModel reg (fi.relatedModelName.getD "") with
            | none => none
            | some relMI =>
              match ids.foldlM (fun cc i => cache.updateEntryByRef fuel reg cc
                  ⟨relMI.name, i⟩ fi.jsonReverseFK (.vInt ref.id)) c with
              | none => none
              | some c2 =>
                let entry := mapSet ((mapGet c2.data ref).getD []) jsonName
                  (.vBool true)
                some (cache.setData c2 (mapSet c2.data ref entry))
          | _ => none
        | .rev2One =>
          match value with
          | .vInt rid =>
            match findModel reg (fi.relatedModelName.getD "") with
            | none => none
            | some relMI =>
              match cache.updateEntryByRef fuel reg c ⟨relMI.name, rid⟩
                  fi.jsonReverseFK (.vInt ref.id) with
              | none => none
              | some c2 =>
                let entry := mapSet ((mapGet c2.data ref).getD []) jsonName
                  (.vBool true)
                some (cache.setData c2 (mapSet c2.data ref entry))
          | _ => none
        | .many2Many =>
          match value with
          | .vInts ids =>
            let c2 := (c.removeM2MLinks fi ref.id).addM2MLink fi ref.id ids
            let entry := mapSet ((mapGet c2.data ref).getD []) jsonName
              (.vBool true)
            some (cache.setData c2 (mapSet c2.data ref entry))
          | _ => none
        | _ =>
          let entry := mapSet ((mapGet c.data ref).getD []) jsonName value
          some (cache.setData c (mapSet c.data ref entry))

/-- updateEntry creates or updates an entry defined by model, id and a field
path.  The Go method returns the getRelatedRef error, which every caller in
the repository discards, so that case is the unchanged cache; none is a
panic. -/
def cache.updateEntry (fuel : Nat) (reg : Registry) (c : cache) (mi : Model)
    (id : Int) (path : List String) (value : Value) : Option cache :=
  match cache.getRelatedRef reg c mi id path with
  | none => none
  | some .err => some c
  | some (.ok ref fName) => cache.updateEntryByRef fuel reg c ref fName value

/-- The entry loop of addRecord over one ordered bucket list. -/
def cache.addRecordLoop (fuel : Nat) (reg : Registry) (mi : Model) (id : Int) :
    cache → List (List String × Value) → Option cache
  | c, [] => some c
  | c, (p, v) :: rest =>
    match cache.updateEntry fuel reg c mi id p v with
    | none => none
    | some c2 => cache.addRecordLoop fuel reg mi id c2 rest

/-- addRecord successively adds each entry of the given field map to the
cache, shortest paths first (paths bucketed by segment count, buckets
processed in increasing length, source order within a bucket). -/
def cache.addRecord (fuel : Nat) (reg : Registry) (c : cache) (mi : Model)
    (id : Int) (fMap : List (List String × Value)) : Option cache :=
  let maxLen := (fMap.map (fun p => p.1.length)).foldl max 0
  let ordered := ((List.range (maxLen + 1)).map
    (fun i => fMap.filter (fun p => p.1.length == i))).flatten
  cache.addRecordLoop fuel reg mi id c ordered

/-- invalidateRecord removes an entire record from the cache and purges the
many-to-many links of every Many2Many field of its model. -/
def cache.invalidateRecord (c : cache) (mi : Model) (id : Int) : cache :=
  let c2 : cache := { c with data := mapDel c.data ⟨mi.name, id⟩ }
  mi.fields.foldl
    (fun acc fi =>
      if fi.fieldType == .many2Many then acc.removeM2MLinks fi id else acc)
    c2

/-- removeEntry removes the given entry from cache; a Many2Many entry also
drops its links.  Deleting from an absent inner map is the Go no-op. -/
def cache.removeEntry (reg : Registry) (c : cache) (mi : Model) (id : Int)
    (fieldName : String) : Option cache :=
  match cache.checkIfInCache reg c mi [id] [[fieldName]] with
  | none => none
  | some false => some c
  | some true =>
    let ref : cacheRef := ⟨mi.name, id⟩
    let entry := mapDel ((mapGet c.data ref).getD []) fieldName
    let c2 := if mapHas c.data ref then
        cache.setData c (mapSet c.data ref entry)
      else c
    match mi.MustGet fieldName with
    | none => none
    | some fi =>
      if fi.fieldType == .many2Many then some (c2.removeM2MLinks fi id)
      else some c2

/-! The dependency and trigger engine (rc_computed.go). -/

/-- The field-by-field change test of updateStoredFields: a RecordSet-valued
current value compares its underlying id collection by set equality through
Collection().Equals, any other value by plain inequality. -/
def valueChanged (cur v : Value) : Bool :=
  match cur, v with
  | .vSet s, .vSet t => decide (s ≠ t)
  | cur, v => decide (cur ≠ v)

/-- The change decision of updateStoredFields for one record: some returned
field other than write_date differs from the current value. -/
def recChanged (current : Int → String → Value) (id : Int)
    (vals : FieldMap) : Bool :=
  vals.any (fun p => p.1 != "write_date" && valueChanged (current id p.1) p.2)

/-- updateStoredFields calls the given compute method on each record of recs
and issues a write with the returned values only when at least one field
other than write_date actually changed.  The Call reflection and the
FieldMap restriction to fieldsToReset are abstracted into computeMethod,
record state reads (rec.Get) into current; the result is the ordered list of
issued writes, each carrying the force-compute-write context in Go. -/
def updateStoredFields (current : Int → String → Value)
    (computeMethod : Int → FieldMap) (recs : List Int) :
    List (Int × FieldMap) :=
  recs.filterMap (fun id =>
    let vals := computeMethod id
    if recChanged current id vals then some (id, vals) else none)

/-- The context flags consulted by the write paths. -/
structure WriteCtx where
  forceComputeWrite : Bool := false
  allowWithoutInverse : Bool := false
deriving DecidableEq

/-- Outcome of processInverseMethods for one written field. -/
inductive InvAction where
  | skip
  | invoke (meth : String) (arg : Value)
  | fatal
deriving DecidableEq

/-- Modelled from the spec: typesutils.IsZero (not under src) tests whether
a supplied value equals the type's zero value. -/
def isZero : Value → Bool
  | .vNull => true
  | .vInt n => n == 0
  | .vBool b => b == false
  | .vStr s => s == ""
  | .vInts l => l.isEmpty
  | .vSet s => decide (s = ∅)

/-- Modelled from the spec: getRelatedFieldInfo (not under src) resolves a
possibly relation-crossing field path to its final Field descriptor through
the registry; failure is the schema-error panic. -/
def getRelatedFieldInfo (reg : Registry) (mi : Model) :
    List String → Option Field
  | [] => none
  | [e] => mi.MustGet e
  | e :: r :: rest =>
    match getRelatedModelInfo reg mi e with
    | none => none
    | some relMI => getRelatedFieldInfo reg relMI (r :: rest)

/-- Modelled from the spec: FieldMap.Get (not under src) looks a field up in
a field map under its json storage name or its declared name. -/
def fieldMapGet (fMap : FieldMap) (fi : Field) : Option Value :=
  match mapGet fMap fi.json with
  | some v => some v
  | none => mapGet fMap fi.name

/-- The body of the processInverseMethods loop for one written field name:
non-computed fields and writes carrying the force-compute-write context are
passed through; a computed field with an inverse method yields a CallMulti
invocation; one without is fatal unless the allow-without-inverse context is
set or the supplied value is the zero value. -/
def processInverseField (reg : Registry) (mi : Model) (ctx : WriteCtx)
    (fMap : FieldMap) (fieldName : String) : Option InvAction :=
  match getRelatedFieldInfo reg mi [fieldName] with
  | none => none
  | some fi =>
    if !(fi.compute != "") || ctx.forceComputeWrite then some .skip
    else
      match fieldMapGet fMap fi with
      | none => some .skip
      | some val =>
        if fi.inverse == "" then
          if ctx.allowWithoutInverse then some .skip
          else if isZero val then some .skip
          else some .fatal
        else some (.invoke fi.inverse val)

def processInverseLoop (reg : Registry) (mi : Model) (ctx : WriteCtx)
    (fMap : FieldMap) : List String → Option (List (String × Value))
  | [] => some []
  | k :: rest =>
    match processInverseField reg mi ctx fMap k with
    | none => none
    | some .fatal => none
    | some .skip => processInverseLoop reg mi ctx fMap rest
    | some (.invoke m v) =>
      (processInverseLoop reg mi ctx fMap rest).map (fun l => (m, v) :: l)

/-- processInverseMethods executes inverse methods of computed fields of the
given field map, collecting the CallMulti invocations in key order; none is
the fatal missing-inverse panic. -/
def processInverseMethods (reg : Registry) (mi : Model) (ctx : WriteCtx)
    (fMap : FieldMap) : Option (List (String × Value)) :=
  processInverseLoop reg mi ctx fMap (fMap.map (fun p => p.1))

/-- The state threaded through computeFieldValues: the params out-parameter,
the environment cache and the trace of invoked compute methods. -/
structure ComputeState where
  params : FieldMap
  c : cache
  invoked : List String

/-- The inner loop of computeFieldValues over the field map returned by one
compute call: each returned key is resolved in the model (a failed Get is
the nil dereference panic on key.json), written to params under its json
name and stored in cache under the computed field's name. -/
def computeParamsLoop (fuel : Nat) (reg : Registry) (mi : Model) (id : Int)
    (fInfo : Field) : ComputeState → FieldMap → Option ComputeState
  | st, [] => some st
  | st, (k, v) :: rest =>
    match mi.MustGet k with
    | none => none
    | some key =>
      match cache.updateEntry fuel reg st.c mi id [fInfo.name] v with
      | none => none
      | some c2 =>
        computeParamsLoop fuel reg mi id fInfo
          { st with params := mapSet st.params key.json v, c := c2 } rest

/-- One iteration of computeFieldValues: skip a field the permission oracle
denies or one already present in params; serve from cache when the value is
cached; otherwise invoke the compute method and merge its returned field map
into params and cache. -/
def computeFieldStep (fuel : Nat) (reg : Registry) (mi : Model) (id : Int)
    (perm : Field → Bool) (callCompute : String → FieldMap)
    (st : ComputeState) (fInfo : Field) : Option ComputeState :=
  if !perm fInfo then some st
  else if mapHas st.params fInfo.name then some st
  else
    match cache.checkIfInCache reg st.c mi [id] [[fInfo.name]] with
    | none => none
    | some true =>
      match cache.get reg st.c mi id [fInfo.name] with
      | none => none
      | some v => some { st with params := mapSet st.params fInfo.json v }
    | some false =>
      match computeParamsLoop fuel reg mi id fInfo
          { st with invoked := st.invoked ++ [fInfo.compute] }
          (callCompute fInfo.compute) with
      | none => none
      | some st2 => some st2

/-- computeFieldValues updates params with the given computed fields of the
single record, reading from cache when available and computing otherwise.
The field list is the getComputedFields result; perm embeds the
checkFieldPermission oracle for the environment user and Read permission. -/
def computeFieldValues (fuel : Nat) (reg : Registry) (mi : Model) (id : Int)
    (perm : Field → Bool) (callCompute : String → FieldMap) :
    List Field → ComputeState → Option ComputeState
  | [], st => some st
  | f :: rest, st =>
    match computeFieldStep fuel reg mi id perm callCompute st f with
    | none => none
    | some st2 => computeFieldValues fuel reg mi id perm callCompute rest st2

/-! The table join resolver and SQL query builder (parts 003 and 005). -/

/-- tableJoin represents one FROM/JOIN clause; otherTable points at the
previously established join it links to. -/
inductive TableJoin where
  | mk (tableName : String) (joined : Bool) (innerJoin : Bool)
      (field : String) (otherTable : Option TableJoin) (otherField : String)
      (aliasName : String) (expr : String)

def TableJoin.tableName : TableJoin → String
  | .mk t _ _ _ _ _ _ _ => t

def TableJoin.joined : TableJoin → Bool
  | .mk _ j _ _ _ _ _ _ => j

def TableJoin.innerJoin : TableJoin → Bool
  | .mk _ _ i _ _ _ _ _ => i

def TableJoin.field : TableJoin → String
  | .mk _ _ _ f _ _ _ _ => f

def TableJoin.otherTable : TableJoin → Option TableJoin
  | .mk _ _ _ _ o _ _ _ => o

def TableJoin.otherField : TableJoin → String
  | .mk _ _ _ _ _ o _ _ => o

def TableJoin.aliasName : TableJoin → String
  | .mk _ _ _ _ _ _ a _ => a

def TableJoin.expr : TableJoin → String
  | .mk _ _ _ _ _ _ _ e => e

/-- sqlString returns the sql string for the tableJoin clause. -/
def TableJoin.sqlString (t : TableJoin) : String :=
  if !t.joined then t.tableName ++ " " ++ t.aliasName ++ " "
  else
    let joinType := if t.innerJoin then "INNER " else "LEFT "
    joinType ++ "JOIN " ++ t.tableName ++ " " ++ t.aliasName ++ " ON " ++
      (t.otherTable.map TableJoin.aliasName).getD "" ++ "." ++ t.otherField ++
      "=" ++ t.aliasName ++ "." ++ t.field ++ " "

/-- Modelled from the spec: the dialect adapter (not under src) quotes an
identifier; the default postgres adapter double-quotes it. -/
def quoteTableName (t : String) : String := "\"" ++ t ++ "\""

/-- The separator of chained join aliases (defined outside src; the doc
comments of the query builder show profiles__users). -/
def sqlSep : String := "__"

/-- Modelled from the spec: jsonizePath (not under src) maps a field name on
a model to its json storage name; a name that does not resolve passes
through unchanged. -/
def jsonizePath (m : Model) (name : String) : String :=
  match m.MustGet name with
  | some f => f.json
  | none => name

/-- The loop of generateTableJoins over the path segments: breaks on a
non-relation segment or a trailing FK segment, emits one join per
many-to-one-like hop and two joins (link table, then target) per
many-to-many hop; none embeds the unparsable-expression panic and the nil
related model dereference.  The link-model columns come from the flattened
m2m info where the Go code writes jsonizePath on the link model. -/
def genJoinsLoop (reg : Registry) (curMI : Model) (curTJ : TableJoin)
    (aliasAcc : String) : List String → Option (List TableJoin)
  | [] => some []
  | expr :: rest =>
    match curMI.MustGet expr with
    | none => none
    | some fi =>
      match fi.relatedModelName with
      | none => some []
      | some relName =>
        if rest.isEmpty && fi.fieldType.IsFKRelationType then some []
        else
          match findModel reg relName with
          | none => none
          | some relModel =>
            let innerJoin := fi.required
            let tjExpr0 := rest.headD ""
            match fi.fieldType with
            | .many2One | .one2One =>
              let alias2 := aliasAcc ++ sqlSep ++ relModel.tableName
              let nextTJ : TableJoin := .mk (quoteTableName relModel.tableName)
                true innerJoin "id" (some curTJ) expr (quoteTableName alias2)
                tjExpr0
              (genJoinsLoop reg relModel nextTJ alias2 rest).map
                (fun l => nextTJ :: l)
            | .one2Many | .rev2One =>
              let tjExpr := if tjExpr0 == "" then "id" else tjExpr0
              let alias2 := aliasAcc ++ sqlSep ++ relModel.tableName
              let nextTJ : TableJoin := .mk (quoteTableName relModel.tableName)
                true innerJoin (jsonizePath relModel fi.reverseFK)
                (some curTJ) "id" (quoteTableName alias2) tjExpr
              (genJoinsLoop reg relModel nextTJ alias2 rest).map
                (fun l => nextTJ :: l)
            | .many2Many =>
              let aliasL := aliasAcc ++ sqlSep ++ fi.m2mRelTableName
              let tj : TableJoin := .mk (quoteTableName fi.m2mRelTableName)
                true false fi.m2mOurFieldJSON (some curTJ) "id"
                (quoteTableName aliasL) fi.m2mTheirFieldJSON
              let tjExpr := if tjExpr0 == "" then "id" else tjExpr0
              let aliasT := aliasL ++ sqlSep ++ relModel.tableName
              let nextTJ : TableJoin := .mk (quoteTableName relModel.tableName)
                true innerJoin "id" (some tj) fi.m2mTheirFieldJSON
                (quoteTableName aliasT) tjExpr
              (genJoinsLoop reg relModel nextTJ aliasT rest).map
                (fun l => tj :: nextTJ :: l)
            | _ =>
              let alias2 := aliasAcc ++ sqlSep ++ relModel.tableName
              let nextTJ : TableJoin := .mk (quoteTableName relModel.tableName)
                true innerJoin "" (some curTJ) "" (quoteTableName alias2)
                tjExpr0
              (genJoinsLoop reg relModel nextTJ alias2 rest).map
                (fun l => nextTJ :: l)

/-- generateTableJoins transforms a field path into the chain of tableJoins
starting at the root table, which keeps its quoted table name as alias. -/
def generateTableJoins (reg : Registry) (root : Model)
    (fieldExprs : List String) : Option (List TableJoin) :=
  let currentTableName := quoteTableName root.tableName
  let curTJ : TableJoin := .mk currentTableName false false "" none ""
    currentTableName (fieldExprs.headD "")
  (genJoinsLoop reg root curTJ root.tableName fieldExprs).map
    (fun l => curTJ :: l)

/-- joinedFieldExpression renders a field path as alias.column from the last
join of its chain. -/
def joinedFieldExpression (reg : Registry) (root : Model)
    (exprs : List String) : Option String :=
  (generateTableJoins reg root exprs).map (fun joins =>
    match joins.getLast? with
    | some j => j.aliasName ++ "." ++ j.expr
    | none => "")

/-- The condition operators of the operator package (not under src); the
renderer distinguishes only Equals and NotEquals, the rest reach the
default adapter mapping. -/
inductive Operator where
  | eq | ne | gt | ge | lt | le | like | ilike | contains | childOf | elemIn
deriving DecidableEq

/-- Modelled from the spec: nbutils.CastToInteger (not under src) casts a
numeric value to int64 and errors on anything else. -/
def castToInteger : Value → Option Int
  | .vInt n => some n
  | _ => none

/-- Modelled from the spec: the adapter operator-to-SQL mapping (not under
src); the argument passes through as the single placeholder parameter. -/
def operatorSQL (op : Operator) (arg : Value) : String × Value :=
  (match op with
   | .eq => "= ?"
   | .ne => "!= ?"
   | .gt => "> ?"
   | .ge => ">= ?"
   | .lt => "< ?"
   | .le => "<= ?"
   | .like => "LIKE ?"
   | .ilike => "ILIKE ?"
   | .contains => "LIKE ?"
   | .childOf => "= ?"
   | .elemIn => "IN (?)", arg)

abbrev SQLParams := List Value

/-- A predicate is a leaf (field path in storage names, operator, argument
with vNull embedding the Go nil, negation and disjunction flags) or a
nested sub-condition. -/
inductive Predicate where
  | leaf (exprs : List String) (op : Operator) (arg : Value)
      (isOr isNot : Bool)
  | cond (predicates : List Predicate) (isOr isNot : Bool)

def Predicate.isOr : Predicate → Bool
  | .leaf _ _ _ o _ => o
  | .cond _ o _ => o

def Predicate.isNot : Predicate → Bool
  | .leaf _ _ _ _ n => n
  | .cond _ _ n => n

def Predicate.isCond : Predicate → Bool
  | .leaf _ _ _ _ _ => false
  | .cond _ _ _ => true

mutual

/-- conditionSQLClause renders the WHERE clause of a predicate list, the
first predicate standing alone (NOT prefixed when flagged). -/
def conditionSQLClause (reg : Registry) (root : Model) :
    List Predicate → Option (String × SQLParams)
  | [] => some ("", [])
  | p :: rest =>
    match predicateSQLClause reg root p with
    | none => none
    | some (vSQL, vArgs) =>
      let sql0 := if p.isNot then "NOT " ++ vSQL else vSQL
      condFold reg root sql0 vArgs rest

/-- The non-first iterations of the conditionSQLClause loop: fold AND/OR
(plus NOT) with parenthesization exactly when the new predicate is a nested
sub-condition. -/
def condFold (reg : Registry) (root : Model) (sql : String)
    (args : SQLParams) : List Predicate → Option (String × SQLParams)
  | [] => some (sql, args)
  | p :: rest =>
    match predicateSQLClause reg root p with
    | none => none
    | some (vSQL, vArgs) =>
      let op := (if p.isOr then "OR" else "AND") ++
        (if p.isNot then " NOT" else "")
      let sql2 := if p.isCond then
          "(" ++ sql ++ ") " ++ op ++ " (" ++ vSQL ++ ")"
        else sql ++ " " ++ op ++ " " ++ vSQL
      condFold reg root sql2 (args ++ vArgs) rest

/-- predicateSQLClause renders one predicate: a zero foreign key argument on
an FK relation field is substituted by nil; a nil argument renders IS NULL
for Equals and IS NOT NULL for NotEquals and panics (none) on any other
operator. -/
def predicateSQLClause (reg : Registry) (root : Model) :
    Predicate → Option (String × SQLParams)
  | .cond ps _ _ => conditionSQLClause reg root ps
  | .leaf exprs op arg _ _ =>
    match getRelatedFieldInfo reg root exprs with
    | none => none
    | some fi =>
      let arg := if fi.fieldType.IsFKRelationType &&
          castToInteger arg == some 0 then Value.vNull else arg
      match joinedFieldExpression reg root exprs with
      | none => none
      | some field =>
        if arg == Value.vNull then
          match op with
          | .eq => some (field ++ " IS NULL", [])
          | .ne => some (field ++ " IS NOT NULL", [])
          | _ => none
        else
          let osql := operatorSQL op arg
          some (field ++ " " ++ osql.1, [osql.2])

end

/-- The running state of the tablesSQL loop: accumulated FROM clause, alias
substitution map and next synthetic alias index. -/
structure TState where
  res : String
  joinsMap : List (String × String)
  aliasIndex : Nat
deriving DecidableEq

/-- One join of the tablesSQL loop: a join whose alias was already seen is
skipped; a new alias is mapped to the quoted Tn synthetic alias, except the
very first which keeps its own alias, and its clause is appended. -/
def tablesSQLStep (st : TState) (j : TableJoin) : TState :=
  if mapHas st.joinsMap j.aliasName then st
  else
    let newAlias := if st.aliasIndex = 0 then j.aliasName
      else quoteTableName ("T" ++ toString st.aliasIndex)
    { res := st.res ++ j.sqlString,
      joinsMap := mapSet st.joinsMap j.aliasName newAlias,
      aliasIndex := st.aliasIndex + 1 }

def tablesSQLLoop (reg : Registry) (root : Model) (st : TState) :
    List (List String) → Option TState
  | [] => some st
  | f :: rest =>
    match generateTableJoins reg root f with
    | none => none
    | some tJoins =>
      tablesSQLLoop reg root (tJoins.foldl tablesSQLStep st) rest

/-- tablesSQL returns the FROM clause of the query with joins deduplicated
by alias across all field expressions, and the map renaming chain aliases
to short quoted Tn aliases, the first (root) alias kept as itself. -/
def tablesSQL (reg : Registry) (root : Model) (fExprs : List (List String)) :
    Option (String × List (String × String)) :=
  (tablesSQLLoop reg root ⟨"", [], 0⟩ fExprs).map
    (fun st => (st.res, st.joinsMap))

/-! Many-to-many field declaration (part 007). -/

/-- The attributes of a Many2ManyField declaration used by the embedding. -/
structure Many2ManyFieldDef where
  RelationModelName : String
  M2MLinkModelName : String := ""
  M2MOurField : String := ""
  M2MTheirField : String := ""
  Required : Bool := false
  Stored : Bool := false
  Compute : String := ""
  Inverse : String := ""
  JSON : String := ""
deriving DecidableEq

/-- Modelled from the spec: createM2MRelModelInfo (not under src) creates or
retrieves the link model of the given name with one key field per endpoint;
the flattening keeps the link model and table names and both key columns. -/
def createM2MRelModelInfo (relModName ourName theirName : String) : M2MInfo :=
  { relModelName := relModName, relTableName := relModName,
    ourFieldName := ourName, theirFieldName := theirName,
    ourFieldJSON := ourName, theirFieldJSON := theirName }

/-- Modelled from the spec: getJSONAndString (snakeCaseFieldName not under
src) keeps a non-empty json override and otherwise derives the storage name
from the field name. -/
def getJSONAndString (name : String) (json : String) : String :=
  if json == "" then name else json

/-- Many2ManyField.DeclareField: the endpoint key names default to the two
model names, equal endpoints are the panic (none), and the link model name
defaults to the lexically sorted endpoint pair suffixed Rel. -/
def Many2ManyField.DeclareField (modelName : String)
    (mf : Many2ManyFieldDef) (name : String) : Option Field :=
  let our := if mf.M2MOurField == "" then modelName else mf.M2MOurField
  let their := if mf.M2MTheirField == "" then mf.RelationModelName
    else mf.M2MTheirField
  if our == their then none
  else
    let sorted := if goCompare our their ≤ 0 then (our, their)
      else (their, our)
    let m2mRelModName := if mf.M2MLinkModelName == "" then
        sorted.1 ++ sorted.2 ++ "Rel"
      else mf.M2MLinkModelName
    let info := createM2MRelModelInfo m2mRelModName our their
    some { name := name, json := getJSONAndString name mf.JSON,
           fieldType := .many2Many, required := mf.Required,
           stored := mf.Stored, compute := mf.Compute,
           inverse := mf.Inverse,
           relatedModelName := some mf.RelationModelName,
           m2m := some info }

/-! ### Association-list lemmas -/

theorem mapGet_cons {K V : Type} [BEq K] (p : K × V) (m : List (K × V))
    (k : K) : mapGet (p :: m) k = if p.1 == k then some p.2 else mapGet m k := by
  by_cases h : p.1 == k <;> simp [mapGet, List.find?_cons, h]

theorem mapGet_mapSet_same {K V : Type} [BEq K] [LawfulBEq K]
    (m : List (K × V)) (k : K) (v : V) : mapGet (mapSet m k v) k = some v := by
  induction m with
  | nil => simp [mapGet, mapSet, List.find?_cons]
  | cons p rest ih =>
    by_cases h : p.1 == k
    · simp [mapSet, h, mapGet_cons]
    · simp [mapSet, h, mapGet_cons, ih]

theorem mapGet_mapSet_other {K V : Type} [BEq K] [LawfulBEq K]
    (m : List (K × V)) (k k2 : K) (v : V) (h : ¬(k2 == k)) :
    mapGet (mapSet m k v) k2 = mapGet m k2 := by
  have h2 : (k == k2) = false := by
    cases h3 : k == k2
    · rfl
    · exact absurd (by simp_all) h
  induction m with
  | nil => simp [mapGet, mapSet, List.find?_cons, h2]
  | cons p rest ih =>
    by_cases hp : p.1 == k
    · have hk : p.1 = k := eq_of_beq hp
      simp [mapSet, hp, mapGet_cons, h2, hk]
    · simp [mapSet, hp, mapGet_cons, ih]

theorem mapGet_mapDel_same {K V : Type} [BEq K] [LawfulBEq K]
    (m : List (K × V)) (k : K) : mapGet (mapDel m k) k = none := by
  induction m with
  | nil => simp [mapGet, mapDel]
  | cons p rest ih =>
    by_cases hp : p.1 == k
    · simpa [mapDel, hp] using ih
    · simpa [mapDel, hp, mapGet_cons] using ih

theorem mapHas_mapSet_mono {K V : Type} [BEq K] [LawfulBEq K]
    (m : List (K × V)) (k k2 : K) (v : V) (h : mapHas m k2 = true) :
    mapHas (mapSet m k v) k2 = true := by
  by_cases hk : k2 == k
  · have : k2 = k := eq_of_beq hk
    subst this
    simp [mapHas, mapGet_mapSet_same]
  · simpa [mapHas, mapGet_mapSet_other m k k2 v hk] using h

/-! ### C1: stored recomputation writes only on an actual change -/

/-- C1: for a write that recomputes stored computed fields,
updateStoredFields invokes the compute method on each affected record,
compares the returned values field by field against the current values —
a RecordSet value by set equality of the underlying id collection, the
write_date bookkeeping field always excluded — and issues a write for a
record exactly when at least one compared field changed; in particular a
record whose recomputation leaves every compared value unchanged receives
no second write. -/
theorem C1_updateStoredFields_writes_only_on_change
    (current : Int → String → Value) (computeMethod : Int → FieldMap)
    (recs : List Int) :
    updateStoredFields current computeMethod recs =
      (recs.filter (fun id => recChanged current id (computeMethod id))).map
        (fun id => (id, computeMethod id)) ∧
    (∀ id, recChanged current id (computeMethod id) = false →
      ∀ vals, (id, vals) ∉ updateStoredFields current computeMethod recs) ∧
    (∀ id w rest, recChanged current id (("write_date", w) :: rest) =
      recChanged current id rest) ∧
    (∀ s t : Finset Int, valueChanged (.vSet s) (.vSet t) = false ↔ s = t) := by
  have h1 : updateStoredFields current computeMethod recs =
      (recs.filter (fun i => recChanged current i (computeMethod i))).map
        (fun i => (i, computeMethod i)) := by
    induction recs with
    | nil => rfl
    | cons r rest ih =>
      by_cases h : recChanged current r (computeMethod r) <;>
        simp [updateStoredFields, h] at ih ⊢ <;> exact ih
  refine ⟨h1, ?_, ?_, ?_⟩
  · intro id hid vals hmem
    rw [h1] at hmem
    rcases List.mem_map.mp hmem with ⟨i, hi, heq⟩
    have hii : i = id := congrArg Prod.fst heq
    subst hii
    exact absurd (List.of_mem_filter hi) (by simp [hid])
  · intro id w rest
    simp [recChanged]
  · intro s t
    simp [valueChanged]

/-- Witness for C1: a record whose recomputed total equals the stored total
gets no write. -/
theorem C1_witness :
    (1, [("total", Value.vInt 25)]) ∉
      updateStoredFields (fun _ _ => Value.vInt 25)
        (fun _ => [("total", Value.vInt 25)]) [1] :=
  (C1_updateStoredFields_writes_only_on_change
    (fun _ _ => Value.vInt 25) (fun _ => [("total", Value.vInt 25)]) [1]).2.1
    1 (by decide) [("total", Value.vInt 25)]

/-! ### C8: explicit writes to computed fields go through the inverse -/

/-- C8: for a write supplying an explicit value for a computed field (a
direct write, one not carrying the force-compute-write context): when the
field declares an inverse method, that inverse is invoked with the value
instead of persisting the field; when it declares none, the write is the
fatal schema-usage panic unless the caller set the allow-without-inverse
context or the supplied value is the zero value, in which cases the field
is silently skipped. -/
theorem C8_processInverseField_spec
    (reg : Registry) (mi : Model) (ctx : WriteCtx) (fMap : FieldMap)
    (fieldName : String) (fi : Field) (val : Value)
    (hres : getRelatedFieldInfo reg mi [fieldName] = some fi)
    (hcomp : fi.compute ≠ "")
    (hforce : ctx.forceComputeWrite = false)
    (hval : fieldMapGet fMap fi = some val) :
    (fi.inverse ≠ "" →
      processInverseField reg mi ctx fMap fieldName =
        some (.invoke fi.inverse val)) ∧
    (fi.inverse = "" →
      ((ctx.allowWithoutInverse = true ∨ isZero val = true →
        processInverseField reg mi ctx fMap fieldName = some .skip) ∧
      (ctx.allowWithoutInverse = false → isZero val = false →
        processInverseField reg mi ctx fMap fieldName = some .fatal))) := by
  constructor
  · intro hinv
    simp [processInverseField, hres, hcomp, hforce, hval, hinv]
  · intro hinv
    constructor
    · rintro (ha | hz)
      · simp [processInverseField, hres, hcomp, hforce, hval, hinv, ha]
      · by_cases ha : ctx.allowWithoutInverse <;>
          simp [processInverseField, hres, hcomp, hforce, hval, hinv, ha, hz]
    · intro ha hz
      simp [processInverseField, hres, hcomp, hforce, hval, hinv, ha, hz]

/-- Witness for C8 at a concrete computed field with an inverse method. -/
theorem C8_witness :
    processInverseField
      [Model.mk "M" "m"
        [{ name := "Total", json := "total", fieldType := .float,
           stored := true, compute := "CalcTotal", inverse := "InvTotal" }]]
      (Model.mk "M" "m"
        [{ name := "Total", json := "total", fieldType := .float,
           stored := true, compute := "CalcTotal", inverse := "InvTotal" }])
      {} [("total", Value.vInt 9)] "total" =
      some (.invoke "InvTotal" (Value.vInt 9)) :=
  (C8_processInverseField_spec
      [Model.mk "M" "m"
        [{ name := "Total", json := "total", fieldType := .float,
           stored := true, compute := "CalcTotal", inverse := "InvTotal" }]]
      (Model.mk "M" "m"
        [{ name := "Total", json := "total", fieldType := .float,
           stored := true, compute := "CalcTotal", inverse := "InvTotal" }])
      {} [("total", Value.vInt 9)] "total"
      { name := "Total", json := "total", fieldType := .float,
        stored := true, compute := "CalcTotal", inverse := "InvTotal" }
      (Value.vInt 9) (by decide) (by decide) rfl (by decide)).1 (by decide)

/-! ### C3: null-sentinel predicate rewrite -/

/-- C3: a predicate on an FK relation field whose argument is the zero
foreign key (the relation-null sentinel) is rendered IS NULL under the
equality operator and IS NOT NULL under the inequality operator, and any
other operator with the null argument is the fatal programmer panic instead
of SQL. -/
theorem C3_null_predicate_rewrite
    (reg : Registry) (root : Model) (exprs : List String) (op : Operator)
    (fi : Field) (fld : String) (isOr isNot : Bool)
    (hfi : getRelatedFieldInfo reg root exprs = some fi)
    (hfk : fi.fieldType.IsFKRelationType = true)
    (hfld : joinedFieldExpression reg root exprs = some fld) :
    (op = .eq →
      predicateSQLClause reg root (.leaf exprs op (.vInt 0) isOr isNot) =
        some (fld ++ " IS NULL", [])) ∧
    (op = .ne →
      predicateSQLClause reg root (.leaf exprs op (.vInt 0) isOr isNot) =
        some (fld ++ " IS NOT NULL", [])) ∧
    (op ≠ .eq → op ≠ .ne →
      predicateSQLClause reg root (.leaf exprs op (.vInt 0) isOr isNot) =
        none) := by
  have hstep : predicateSQLClause reg root (.leaf exprs op (.vInt 0) isOr isNot) =
      (match op with
       | .eq => some (fld ++ " IS NULL", ([] : SQLParams))
       | .ne => some (fld ++ " IS NOT NULL", ([] : SQLParams))
       | _ => none) := by
    simp only [predicateSQLClause, hfi, hfld, hfk, castToInteger]
    simp
  refine ⟨?_, ?_, ?_⟩
  · intro h
    subst h
    simpa using hstep
  · intro h
    subst h
    simpa using hstep
  · intro h1 h2
    rw [hstep]
    cases op <;> simp_all

/-- Witness for C3: an equality predicate against the null sentinel on a
concrete many2one field renders IS NULL. -/
theorem C3_witness :
    predicateSQLClause
      [Model.mk "Doc" "doc"
        [{ name := "Owner", json := "owner_id", fieldType := .many2One,
           relatedModelName := some "User" }],
       Model.mk "User" "user" []]
      (Model.mk "Doc" "doc"
        [{ name := "Owner", json := "owner_id", fieldType := .many2One,
           relatedModelName := some "User" }])
      (.leaf ["owner_id"] .eq (.vInt 0) false false) =
      some ("\"doc\".owner_id IS NULL", []) :=
  (C3_null_predicate_rewrite
    [Model.mk "Doc" "doc"
      [{ name := "Owner", json := "owner_id", fieldType := .many2One,
         relatedModelName := some "User" }],
     Model.mk "User" "user" []]
    (Model.mk "Doc" "doc"
      [{ name := "Owner", json := "owner_id", fieldType := .many2One,
         relatedModelName := some "User" }])
    ["owner_id"] .eq
    { name := "Owner", json := "owner_id", fieldType := .many2One,
      relatedModelName := some "User" }
    "\"doc\".owner_id" false false (by decide) (by decide) (by decide)).1 rfl

/-! ### C9: permission-denied computed fields are silently skipped -/

/-- C9: a computed field the read-permission oracle denies is silently
skipped: running computeFieldValues over a field list equals running it
over the permitted sublist (so the remaining fields are processed
identically and the denied field contributes nothing to the result), and
the run over a denied field alone is a no-op returning the state unchanged
— no error and no compute invocation. -/
theorem C9_computeFieldValues_skips_denied
    (fuel : Nat) (reg : Registry) (mi : Model) (id : Int)
    (perm : Field → Bool) (callCompute : String → FieldMap)
    (fs : List Field) (st : ComputeState) :
    computeFieldValues fuel reg mi id perm callCompute fs st =
      computeFieldValues fuel reg mi id perm callCompute
        (fs.filter (fun f => perm f)) st ∧
    (∀ f, perm f = false →
      computeFieldValues fuel reg mi id perm callCompute [f] st = some st) := by
  constructor
  · induction fs generalizing st with
    | nil => rfl
    | cons f rest ih =>
      cases hp : perm f with
      | true =>
        rw [List.filter_cons_of_pos (by simp [hp])]
        simp only [computeFieldValues]
        cases h : computeFieldStep fuel reg mi id perm callCompute st f with
        | none => rfl
        | some st2 => exact ih st2
      | false =>
        rw [List.filter_cons_of_neg (by simp [hp])]
        have hstep : computeFieldStep fuel reg mi id perm callCompute st f =
            some st := by
          simp [computeFieldStep, hp]
        simp only [computeFieldValues, hstep]
        exact ih st
  · intro f hp
    simp [computeFieldValues, computeFieldStep, hp]

/-- Witness for C9: a denied field is skipped without error. -/
theorem C9_witness :
    computeFieldValues 1 [] (Model.mk "M" "m" []) 1 (fun _ => false)
      (fun _ => [])
      [{ name := "Total", json := "total", fieldType := .float,
         compute := "CalcTotal" }] ⟨[], newCache, []⟩ =
      some ⟨[], newCache, []⟩ :=
  (C9_computeFieldValues_skips_denied 1 [] (Model.mk "M" "m" []) 1
    (fun _ => false) (fun _ => [])
    [{ name := "Total", json := "total", fieldType := .float,
       compute := "CalcTotal" }] ⟨[], newCache, []⟩).2
    { name := "Total", json := "total", fieldType := .float,
      compute := "CalcTotal" } rfl

/-! ### Lexical tie-break lemmas -/

theorem goCompareChars_antisymm (x y : List Char) :
    goCompareChars y x = -goCompareChars x y := by
  induction x generalizing y with
  | nil => cases y <;> simp [goCompareChars]
  | cons a as ih =>
    cases y with
    | nil => simp [goCompareChars]
    | cons b bs =>
      simp only [goCompareChars]
      rcases Nat.lt_trichotomy a.toNat b.toNat with h | h | h
      · simp [h, Nat.lt_asymm h]
      · simp [h, Nat.lt_irrefl, ih]
      · simp [h, Nat.lt_asymm h]

theorem goCompareChars_trichotomy (x y : List Char) :
    goCompareChars x y = -1 ∨ goCompareChars x y = 0 ∨
      goCompareChars x y = 1 := by
  induction x generalizing y with
  | nil => cases y <;> simp [goCompareChars]
  | cons a as ih =>
    cases y with
    | nil => simp [goCompareChars]
    | cons b bs =>
      simp only [goCompareChars]
      rcases Nat.lt_trichotomy a.toNat b.toNat with h | h | h
      · simp [h]
      · simp [h, Nat.lt_irrefl, ih]
      · simp [h, Nat.lt_asymm h]

theorem goCompareChars_eq_zero_iff (x y : List Char) :
    goCompareChars x y = 0 ↔ x = y := by
  induction x generalizing y with
  | nil => cases y <;> simp [goCompareChars]
  | cons a as ih =>
    cases y with
    | nil => simp [goCompareChars]
    | cons b bs =>
      simp only [goCompareChars]
      rcases Nat.lt_trichotomy a.toNat b.toNat with h | h | h
      · simp only [h, if_pos]
        constructor
        · intro hc
          exact absurd hc (by decide)
        · rintro ⟨rfl, rfl⟩
          exact absurd h (Nat.lt_irrefl _)
      · have hab : a = b := Char.ext (UInt32.ext h)
        simp [h, Nat.lt_irrefl, ih, hab]
      · simp only [Nat.lt_asymm h, if_neg, h, if_pos, Nat.not_lt.mpr (Nat.le_of_lt h)]
        constructor
        · intro hc
          exact absurd hc (by decide)
        · rintro ⟨rfl, rfl⟩
          exact absurd h (Nat.lt_irrefl _)

theorem goCompare_ne_zero {a b : String} (h : a ≠ b) : goCompare a b ≠ 0 := by
  intro hc
  apply h
  have hl : a.toList = b.toList := (goCompareChars_eq_zero_iff _ _).mp hc
  cases a
  cases b
  simp only [String.toList] at hl
  rw [hl]

theorem goCompare_antisymm (a b : String) : goCompare b a = -goCompare a b :=
  goCompareChars_antisymm a.toList b.toList

theorem goCompare_trichotomy (a b : String) :
    goCompare a b = -1 ∨ goCompare a b = 0 ∨ goCompare a b = 1 :=
  goCompareChars_trichotomy a.toList b.toList

/-- The our-slot of a field is 0 or 1, and it is determined by the sign of
the lexical comparison when the endpoint names differ. -/
theorem ourIndex_cases (fi : Field)
    (hne : fi.m2mOurFieldName ≠ fi.m2mTheirFieldName) :
    (goCompare fi.m2mOurFieldName fi.m2mTheirFieldName = -1 ∧
      fi.ourIndex = 0) ∨
    (goCompare fi.m2mOurFieldName fi.m2mTheirFieldName = 1 ∧
      fi.ourIndex = 1) := by
  rcases goCompare_trichotomy fi.m2mOurFieldName fi.m2mTheirFieldName
    with h | h | h
  · refine Or.inl ⟨h, ?_⟩
    rw [Field.ourIndex, h]
    decide
  · exact absurd h (goCompare_ne_zero hne)
  · refine Or.inr ⟨h, ?_⟩
    rw [Field.ourIndex, h]
    decide

theorem ourIndex_le_one (fi : Field) : fi.ourIndex = 0 ∨ fi.ourIndex = 1 := by
  rcases goCompare_trichotomy fi.m2mOurFieldName fi.m2mTheirFieldName
    with h | h | h <;> rw [Field.ourIndex, h]
  · exact Or.inl (by decide)
  · exact Or.inl (by decide)
  · exact Or.inr (by decide)

/-- Two paired endpoint fields of one link structure occupy opposite
slots. -/
theorem ourIndex_swap (fA fB : Field)
    (hswap1 : fA.m2mOurFieldName = fB.m2mTheirFieldName)
    (hswap2 : fA.m2mTheirFieldName = fB.m2mOurFieldName)
    (hne : fA.m2mOurFieldName ≠ fA.m2mTheirFieldName) :
    fB.ourIndex = (fA.ourIndex + 1) % 2 := by
  have hg : goCompare fB.m2mOurFieldName fB.m2mTheirFieldName =
      -goCompare fA.m2mOurFieldName fA.m2mTheirFieldName := by
    rw [← hswap1, ← hswap2]
    exact goCompare_antisymm _ _
  rcases ourIndex_cases fA hne with ⟨h1, h2⟩ | ⟨h1, h2⟩ <;>
    rw [h2, Field.ourIndex, hg, h1] <;> decide

theorem linkSlot_mkLink_our (idx : Nat) (h : idx = 0 ∨ idx = 1)
    (id v : Int) : linkSlot (mkLink idx id v) idx = id := by
  rcases h with h | h <;> simp [linkSlot, mkLink, h]

theorem linkSlot_mkLink_their (idx : Nat) (h : idx = 0 ∨ idx = 1)
    (id v : Int) : linkSlot (mkLink idx id v) ((idx + 1) % 2) = v := by
  rcases h with h | h <;> simp [linkSlot, mkLink, h]

theorem list_toFinset_map {A B : Type} [DecidableEq A] [DecidableEq B]
    (f : A → B) (l : List A) : (l.map f).toFinset = l.toFinset.image f := by
  ext x
  simp [List.mem_map]

/-! ### C2: cache round trip -/

/-- C2: updating a cache entry with a non-relation value and reading the
same model, id and field back returns that value; for a many-to-many field,
replacing the link set of a record (the update path: remove all links of
the record, then add the new pairs) followed by getM2MLinks returns exactly
the added id set; and a link added from one endpoint field is visible from
the paired field of the other endpoint. -/
theorem C2_cache_round_trip
    (fuel : Nat) (reg : Registry) (c : cache) (mi : Model) (id : Int)
    (jsonName : String) (v : Value) (fi : Field)
    (cm : cache) (fA fB : Field) (idA : Int) (vals : List Int)
    (hreg : findModel reg mi.name = some mi)
    (hfi : mi.MustGet jsonName = some fi)
    (h1 : fi.fieldType ≠ .one2Many) (h2 : fi.fieldType ≠ .rev2One)
    (h3 : fi.fieldType ≠ .many2Many)
    (hrel : fA.m2mRelModelName = fB.m2mRelModelName)
    (hswap1 : fA.m2mOurFieldName = fB.m2mTheirFieldName)
    (hswap2 : fA.m2mTheirFieldName = fB.m2mOurFieldName)
    (hne : fA.m2mOurFieldName ≠ fA.m2mTheirFieldName) :
    (∃ c2, cache.updateEntry (fuel + 1) reg c mi id [jsonName] v = some c2 ∧
      cache.get reg c2 mi id [jsonName] = some v) ∧
    (cache.getM2MLinks
      ((cm.removeM2MLinks fA idA).addM2MLink fA idA vals) fA idA =
        vals.toFinset) ∧
    (∀ w ∈ vals, idA ∈ cache.getM2MLinks (cm.addM2MLink fA idA vals) fB w) := by
  refine ⟨?_, ?_, ?_⟩
  · simp only [cache.updateEntry, cache.getRelatedRef, cache.updateEntryByRef,
      hreg, hfi]
    cases hft : fi.fieldType
    all_goals first
      | exact absurd hft h1
      | exact absurd hft h2
      | exact absurd hft h3
      | (refine ⟨_, rfl, ?_⟩
         simp [cache.get, cache.getRelatedRef, cache.getByRef, cache.setData,
           hreg, hfi, hft, mapGet_mapSet_same])
  · have hidx := ourIndex_le_one fA
    simp only [cache.getM2MLinks, cache.addM2MLink, cache.removeM2MLinks,
      eq_self_iff_true, if_true]
    rw [Finset.filter_union]
    have hleft : Finset.filter (fun l => linkSlot l fA.ourIndex = idA)
        (Finset.filter (fun l => linkSlot l fA.ourIndex ≠ idA)
          (cm.m2mLinks fA.m2mRelModelName)) = ∅ := by
      apply Finset.filter_eq_empty_iff.mpr
      intro x hx
      exact (Finset.mem_filter.mp hx).2
    have hright : Finset.filter (fun l => linkSlot l fA.ourIndex = idA)
        ((vals.map (fun w => mkLink fA.ourIndex idA w)).toFinset) =
        (vals.map (fun w => mkLink fA.ourIndex idA w)).toFinset := by
      apply Finset.filter_true_of_mem
      intro x hx
      rcases List.mem_map.mp (List.mem_toFinset.mp hx) with ⟨w, _, rfl⟩
      exact linkSlot_mkLink_our fA.ourIndex hidx idA w
    rw [hleft, hright, Finset.empty_union, list_toFinset_map,
      Finset.image_image]
    have hcomp : ((fun l => linkSlot l ((fA.ourIndex + 1) % 2)) ∘
        (fun w => mkLink fA.ourIndex idA w)) = (fun w : Int => w) := by
      funext w
      exact linkSlot_mkLink_their fA.ourIndex hidx idA w
    rw [hcomp, Finset.image_id']
  · intro w hw
    have hidxA := ourIndex_le_one fA
    have hidxB := ourIndex_swap fA fB hswap1 hswap2 hne
    simp only [cache.getM2MLinks, cache.addM2MLink]
    rw [← hrel]
    simp only [eq_self_iff_true, if_true]
    apply Finset.mem_image.mpr
    refine ⟨mkLink fA.ourIndex idA w, Finset.mem_filter.mpr ⟨?_, ?_⟩, ?_⟩
    · exact Finset.mem_union_right _
        (List.mem_toFinset.mpr (List.mem_map.mpr ⟨w, hw, rfl⟩))
    · rw [hidxB]
      exact linkSlot_mkLink_their fA.ourIndex hidxA idA w
    · rw [hidxB]
      have hmod : (((fA.ourIndex + 1) % 2 + 1) % 2) = fA.ourIndex := by
        rcases hidxA with h | h <;> simp [h]
      rw [hmod]
      exact linkSlot_mkLink_our fA.ourIndex hidxA idA w

/-- Witness for C2 on a concrete Post/Tag registry. -/
theorem C2_witness :
    (∃ c2, cache.updateEntry 1
        [Model.mk "Post" "post"
          [{ name := "Name", json := "name", fieldType := .char }]]
        newCache
        (Model.mk "Post" "post"
          [{ name := "Name", json := "name", fieldType := .char }])
        7 ["name"] (Value.vStr "x") = some c2 ∧
      cache.get
        [Model.mk "Post" "post"
          [{ name := "Name", json := "name", fieldType := .char }]]
        c2
        (Model.mk "Post" "post"
          [{ name := "Name", json := "name", fieldType := .char }])
        7 ["name"] = some (Value.vStr "x")) ∧
    (cache.getM2MLinks
      ((newCache.removeM2MLinks
          { name := "Tags", json := "tags", fieldType := .many2Many,
            relatedModelName := some "Tag",
            m2m := some (createM2MRelModelInfo "PostTagRel" "Post" "Tag") }
          7).addM2MLink
        { name := "Tags", json := "tags", fieldType := .many2Many,
          relatedModelName := some "Tag",
          m2m := some (createM2MRelModelInfo "PostTagRel" "Post" "Tag") }
        7 [1, 2])
      { name := "Tags", json := "tags", fieldType := .many2Many,
        relatedModelName := some "Tag",
        m2m := some (createM2MRelModelInfo "PostTagRel" "Post" "Tag") }
      7 = ([1, 2] : List Int).toFinset) ∧
    (∀ w ∈ ([1, 2] : List Int), (7 : Int) ∈ cache.getM2MLinks
      (newCache.addM2MLink
        { name := "Tags", json := "tags", fieldType := .many2Many,
          relatedModelName := some "Tag",
          m2m := some (createM2MRelModelInfo "PostTagRel" "Post" "Tag") }
        7 [1, 2])
      { name := "Posts", json := "posts", fieldType := .many2Many,
        relatedModelName := some "Post",
        m2m := some (createM2MRelModelInfo "PostTagRel" "Tag" "Post") }
      w) :=
  C2_cache_round_trip 0
    [Model.mk "Post" "post"
      [{ name := "Name", json := "name", fieldType := .char }]]
    newCache
    (Model.mk "Post" "post"
      [{ name := "Name", json := "name", fieldType := .char }])
    7 "name" (Value.vStr "x")
    { name := "Name", json := "name", fieldType := .char }
    newCache
    { name := "Tags", json := "tags", fieldType := .many2Many,
      relatedModelName := some "Tag",
      m2m := some (createM2MRelModelInfo "PostTagRel" "Post" "Tag") }
    { name := "Posts", json := "posts", fieldType := .many2Many,
      relatedModelName := some "Post",
      m2m := some (createM2MRelModelInfo "PostTagRel" "Tag" "Post") }
    7 [1, 2] (by decide) (by decide) (by decide) (by decide) (by decide)
    (by decide) (by decide) (by decide) (by decide)

/-! ### C6: invalidation -/

theorem removeM2MLinks_data (c : cache) (fi : Field) (id : Int) :
    (c.removeM2MLinks fi id).data = c.data := rfl

theorem removeM2MLinks_subset (c : cache) (fi : Field) (id : Int)
    (rel : String) : (c.removeM2MLinks fi id).m2mLinks rel ⊆ c.m2mLinks rel := by
  simp only [cache.removeM2MLinks]
  by_cases h : rel = fi.m2mRelModelName
  · simp only [h, if_pos rfl]
    exact Finset.filter_subset _ _
  · simp only [if_neg h]
    exact subset_rfl

theorem invalidateFold_data (fs : List Field) (c0 : cache) (id : Int) :
    (fs.foldl (fun acc fi =>
      if fi.fieldType == .many2Many then acc.removeM2MLinks fi id else acc)
      c0).data = c0.data := by
  induction fs generalizing c0 with
  | nil => rfl
  | cons f rest ih =>
    simp only [List.foldl_cons]
    by_cases h : f.fieldType == .many2Many
    · rw [ih]
      simp [h, removeM2MLinks_data]
    · rw [ih]
      simp [h]

theorem invalidateFold_subset (fs : List Field) (c0 : cache) (id : Int)
    (rel : String) :
    (fs.foldl (fun acc fi =>
      if fi.fieldType == .many2Many then acc.removeM2MLinks fi id else acc)
      c0).m2mLinks rel ⊆ c0.m2mLinks rel := by
  induction fs generalizing c0 with
  | nil => exact subset_rfl
  | cons f rest ih =>
    simp only [List.foldl_cons]
    by_cases h : f.fieldType == .many2Many
    · simp only [h, if_pos rfl, if_true]
      exact (ih _).trans (removeM2MLinks_subset c0 f id rel)
    · simp only [h, if_false, Bool.false_eq_true, if_neg]
      exact ih c0

/-- C6: after invalidateRecord, checkIfInCache reports a miss for every
field name of the record, and the many-to-many links of each Many2Many
field of the model referencing the id on this model's slot are purged. -/
theorem C6_invalidateRecord_misses
    (reg : Registry) (c : cache) (mi : Model) (id : Int) (f : String) :
    cache.checkIfInCache reg (cache.invalidateRecord c mi id) mi [id] [[f]] =
      some false ∧
    (∀ fi ∈ mi.fields, fi.fieldType = .many2Many →
      ∀ l ∈ (cache.invalidateRecord c mi id).m2mLinks fi.m2mRelModelName,
        linkSlot l fi.ourIndex ≠ id) := by
  constructor
  · have hdata : (cache.invalidateRecord c mi id).data =
        mapDel c.data ⟨mi.name, id⟩ := by
      simp only [cache.invalidateRecord]
      exact invalidateFold_data mi.fields _ id
    have hm2 : mapHas ((mapGet (mapDel c.data (⟨mi.name, id⟩ : cacheRef))
        (⟨mi.name, id⟩ : cacheRef)).getD []) f = false := by
      rw [mapGet_mapDel_same]
      rfl
    simp [cache.checkIfInCache, cache.checkIds, cache.checkFields,
      cache.checkOne, cache.getRelatedRef, hdata, hm2]
  · intro fi hmem hft l
    suffices h : ∀ (fs : List Field) (c0 : cache), fi ∈ fs →
        l ∈ (fs.foldl (fun acc g =>
          if g.fieldType == .many2Many then acc.removeM2MLinks g id else acc)
          c0).m2mLinks fi.m2mRelModelName →
        linkSlot l fi.ourIndex ≠ id by
      intro hl
      exact h mi.fields _ hmem (by simpa [cache.invalidateRecord] using hl)
    intro fs
    induction fs with
    | nil =>
      intro c0 hmem2 _
      exact absurd hmem2 (List.not_mem_nil fi)
    | cons g rest ih =>
      intro c0 hmem2 hl
      rcases List.mem_cons.mp hmem2 with rfl | hmem3
      · simp only [List.foldl_cons] at hl
        have hsub := invalidateFold_subset rest
          (if (fi.fieldType == FieldType.many2Many) = true then
            c0.removeM2MLinks fi id else c0) id fi.m2mRelModelName
        have hl2 := hsub hl
        rw [if_pos (by simp [hft])] at hl2
        simp only [cache.removeM2MLinks, if_pos rfl] at hl2
        exact (Finset.mem_filter.mp hl2).2
      · simp only [List.foldl_cons] at hl
        exact ih _ hmem3 hl

/-- Witness for C6 on a concrete Post registry with a scalar and an m2m
field. -/
theorem C6_witness :
    cache.checkIfInCache
      [Model.mk "Post" "post"
        [{ name := "Name", json := "name", fieldType := .char },
         { name := "Tags", json := "tags", fieldType := .many2Many,
           relatedModelName := some "Tag",
           m2m := some (createM2MRelModelInfo "PostTagRel" "Post" "Tag") }]]
      (cache.invalidateRecord
        ((cache.updateEntryByRef 1
          [Model.mk "Post" "post"
            [{ name := "Name", json := "name", fieldType := .char },
             { name := "Tags", json := "tags", fieldType := .many2Many,
               relatedModelName := some "Tag",
               m2m := some (createM2MRelModelInfo "PostTagRel" "Post" "Tag") }]]
          newCache ⟨"Post", 1⟩ "name" (Value.vStr "x")).getD newCache)
        (Model.mk "Post" "post"
          [{ name := "Name", json := "name", fieldType := .char },
           { name := "Tags", json := "tags", fieldType := .many2Many,
             relatedModelName := some "Tag",
             m2m := some (createM2MRelModelInfo "PostTagRel" "Post" "Tag") }])
        1)
      (Model.mk "Post" "post"
        [{ name := "Name", json := "name", fieldType := .char },
         { name := "Tags", json := "tags", fieldType := .many2Many,
           relatedModelName := some "Tag",
           m2m := some (createM2MRelModelInfo "PostTagRel" "Post" "Tag") }])
      [1] [["name"]] = some false :=
  (C6_invalidateRecord_misses
    [Model.mk "Post" "post"
      [{ name := "Name", json := "name", fieldType := .char },
       { name := "Tags", json := "tags", fieldType := .many2Many,
         relatedModelName := some "Tag",
         m2m := some (createM2MRelModelInfo "PostTagRel" "Post" "Tag") }]]
    ((cache.updateEntryByRef 1
      [Model.mk "Post" "post"
        [{ name := "Name", json := "name", fieldType := .char },
         { name := "Tags", json := "tags", fieldType := .many2Many,
           relatedModelName := some "Tag",
           m2m := some (createM2MRelModelInfo "PostTagRel" "Post" "Tag") }]]
      newCache ⟨"Post", 1⟩ "name" (Value.vStr "x")).getD newCache)
    (Model.mk "Post" "post"
      [{ name := "Name", json := "name", fieldType := .char },
       { name := "Tags", json := "tags", fieldType := .many2Many,
         relatedModelName := some "Tag",
         m2m := some (createM2MRelModelInfo "PostTagRel" "Post" "Tag") }])
    1 "name").1

/-! ### C4: many-to-many join pair and tie-break symmetry -/

/-- C4: a path segment on a many-to-many field yields exactly two joins —
first the link table joined on the current side's key column against the
current table's id, then the target table joined on the other side's key
column against the target id — and declaring the same logical relation from
either endpoint model (with default key names) produces the same link model
and table, with the our/their key columns swapped consistently, the link
model name fixed by the lexical sort of the two endpoint names. -/
theorem C4_m2m_joins_symmetric
    (reg : Registry) (curMI : Model) (curTJ : TableJoin) (aliasAcc : String)
    (expr : String) (fi : Field) (relModel : Model) (rn : String)
    (A B nA nB : String)
    (hfi : curMI.MustGet expr = some fi)
    (hft : fi.fieldType = .many2Many)
    (hrn : fi.relatedModelName = some rn)
    (hrm : findModel reg rn = some relModel)
    (hAB : A ≠ B) :
    genJoinsLoop reg curMI curTJ aliasAcc [expr] =
      some [TableJoin.mk (quoteTableName fi.m2mRelTableName) true false
              fi.m2mOurFieldJSON (some curTJ) "id"
              (quoteTableName (aliasAcc ++ sqlSep ++ fi.m2mRelTableName))
              fi.m2mTheirFieldJSON,
            TableJoin.mk (quoteTableName relModel.tableName) true fi.required
              "id"
              (some (TableJoin.mk (quoteTableName fi.m2mRelTableName) true
                false fi.m2mOurFieldJSON (some curTJ) "id"
                (quoteTableName (aliasAcc ++ sqlSep ++ fi.m2mRelTableName))
                fi.m2mTheirFieldJSON))
              fi.m2mTheirFieldJSON
              (quoteTableName (aliasAcc ++ sqlSep ++ fi.m2mRelTableName ++
                sqlSep ++ relModel.tableName))
              "id"] ∧
    (∀ fA fB : Field,
      Many2ManyField.DeclareField A { RelationModelName := B } nA = some fA →
      Many2ManyField.DeclareField B { RelationModelName := A } nB = some fB →
      fA.m2mRelModelName = fB.m2mRelModelName ∧
      fA.m2mRelTableName = fB.m2mRelTableName ∧
      fA.m2mOurFieldName = fB.m2mTheirFieldName ∧
      fA.m2mTheirFieldName = fB.m2mOurFieldName ∧
      fA.m2mOurFieldJSON = fB.m2mTheirFieldJSON ∧
      fA.m2mTheirFieldJSON = fB.m2mOurFieldJSON) := by
  constructor
  · simp [genJoinsLoop, hfi, hrn, hft, hrm, FieldType.IsFKRelationType]
  · intro fA fB hA hB
    have hBA : B ≠ A := fun h => hAB h.symm
    simp only [Many2ManyField.DeclareField, beq_self_eq_true, if_true,
      beq_eq_false_iff_ne, ne_eq, if_neg, beq_iff_eq, hAB, hBA,
      reduceIte] at hA hB
    rcases goCompare_trichotomy A B with h | h | h
    · have h2 : goCompare B A = 1 := by
        rw [goCompare_antisymm A B, h]
        try decide
      rw [h] at hA
      rw [h2] at hB
      norm_num at hA hB
      subst hA
      subst hB
      simp [Field.m2mRelModelName, Field.m2mRelTableName,
        Field.m2mOurFieldName, Field.m2mTheirFieldName,
        Field.m2mOurFieldJSON, Field.m2mTheirFieldJSON,
        createM2MRelModelInfo]
    · exact absurd h (goCompare_ne_zero hAB)
    · have h2 : goCompare B A = -1 := by
        rw [goCompare_antisymm A B, h]
        try decide
      rw [h] at hA
      rw [h2] at hB
      norm_num at hA hB
      subst hA
      subst hB
      simp [Field.m2mRelModelName, Field.m2mRelTableName,
        Field.m2mOurFieldName, Field.m2mTheirFieldName,
        Field.m2mOurFieldJSON, Field.m2mTheirFieldJSON,
        createM2MRelModelInfo]

/-- Witness for C4 on the Post/Tag pair. -/
theorem C4_witness :
    genJoinsLoop
      [Model.mk "Post" "post"
        [{ name := "Tags", json := "tags", fieldType := .many2Many,
           relatedModelName := some "Tag",
           m2m := some (createM2MRelModelInfo "PostTagRel" "Post" "Tag") }],
       Model.mk "Tag" "tag" []]
      (Model.mk "Post" "post"
        [{ name := "Tags", json := "tags", fieldType := .many2Many,
           relatedModelName := some "Tag",
           m2m := some (createM2MRelModelInfo "PostTagRel" "Post" "Tag") }])
      (TableJoin.mk "\"post\"" false false "" none "" "\"post\"" "tags")
      "post" ["tags"] =
      some [TableJoin.mk "\"PostTagRel\"" true false "Post"
              (some (TableJoin.mk "\"post\"" false false "" none "" "\"post\""
                "tags")) "id" "\"post__PostTagRel\"" "Tag",
            TableJoin.mk "\"tag\"" true false "id"
              (some (TableJoin.mk "\"PostTagRel\"" true false "Post"
                (some (TableJoin.mk "\"post\"" false false "" none ""
                  "\"post\"" "tags")) "id" "\"post__PostTagRel\"" "Tag"))
              "Tag" "\"post__PostTagRel__tag\"" "id"] :=
  (C4_m2m_joins_symmetric
    [Model.mk "Post" "post"
      [{ name := "Tags", json := "tags", fieldType := .many2Many,
         relatedModelName := some "Tag",
         m2m := some (createM2MRelModelInfo "PostTagRel" "Post" "Tag") }],
     Model.mk "Tag" "tag" []]
    (Model.mk "Post" "post"
      [{ name := "Tags", json := "tags", fieldType := .many2Many,
         relatedModelName := some "Tag",
         m2m := some (createM2MRelModelInfo "PostTagRel" "Post" "Tag") }])
    (TableJoin.mk "\"post\"" false false "" none "" "\"post\"" "tags")
    "post" "tags"
    { name := "Tags", json := "tags", fieldType := .many2Many,
      relatedModelName := some "Tag",
      m2m := some (createM2MRelModelInfo "PostTagRel" "Post" "Tag") }
    (Model.mk "Tag" "tag" []) "Tag" "Post" "Tag" "Tags" "Posts"
    (by decide) (by decide) (by decide) (by decide) (by decide)).1

/-! ### C5: one2many / rev2one join shape -/

/-- C5 counterexample: the join for a one2many segment is LEFT although the
reverse foreign-key field on the related model is declared required — the
code keys the INNER choice on the one2many field's own required flag, which
is false here. -/
theorem C5_counterexample :
    ((Model.mk "L" "l"
      [{ name := "PId", json := "p_id", fieldType := .many2One,
         required := true, relatedModelName := some "P" }]).MustGet
      "PId").map Field.required = some true ∧
    (generateTableJoins
      [Model.mk "P" "p"
        [{ name := "Lines", json := "lines", fieldType := .one2Many,
           required := false, relatedModelName := some "L",
           reverseFK := "PId" }],
       Model.mk "L" "l"
        [{ name := "PId", json := "p_id", fieldType := .many2One,
           required := true, relatedModelName := some "P" }]]
      (Model.mk "P" "p"
        [{ name := "Lines", json := "lines", fieldType := .one2Many,
           required := false, relatedModelName := some "L",
           reverseFK := "PId" }])
      ["lines"]).map (fun l => l.map TableJoin.sqlString) =
      some ["\"p\" \"p\" ",
            "LEFT JOIN \"l\" \"p__l\" ON \"p\".id=\"p__l\".p_id "] := by
  constructor
  · decide
  · decide

/-- C5 amended: for a path segment that is one2many or rev2one, the emitted
join links the related table's reverse FK column to the current table's id
(ON current.id = related.fk_column), and the join is INNER exactly when the
one2many / rev2one relation field itself is declared required (not the
reverse FK field of the related model, as the original claim stated). -/
theorem C5_o2m_join_amended
    (reg : Registry) (curMI : Model) (curTJ : TableJoin) (aliasAcc : String)
    (expr : String) (rest : List String) (fi : Field) (relModel : Model)
    (rn : String)
    (hfi : curMI.MustGet expr = some fi)
    (hft : fi.fieldType = .one2Many ∨ fi.fieldType = .rev2One)
    (hrn : fi.relatedModelName = some rn)
    (hrm : findModel reg rn = some relModel) :
    genJoinsLoop reg curMI curTJ aliasAcc (expr :: rest) =
      (genJoinsLoop reg relModel
        (TableJoin.mk (quoteTableName relModel.tableName) true fi.required
          (jsonizePath relModel fi.reverseFK) (some curTJ) "id"
          (quoteTableName (aliasAcc ++ sqlSep ++ relModel.tableName))
          (if rest.headD "" == "" then "id" else rest.headD ""))
        (aliasAcc ++ sqlSep ++ relModel.tableName) rest).map
        (fun l =>
          TableJoin.mk (quoteTableName relModel.tableName) true fi.required
            (jsonizePath relModel fi.reverseFK) (some curTJ) "id"
            (quoteTableName (aliasAcc ++ sqlSep ++ relModel.tableName))
            (if rest.headD "" == "" then "id" else rest.headD "") :: l) ∧
    (TableJoin.mk (quoteTableName relModel.tableName) true fi.required
        (jsonizePath relModel fi.reverseFK) (some curTJ) "id"
        (quoteTableName (aliasAcc ++ sqlSep ++ relModel.tableName))
        (if rest.headD "" == "" then "id" else rest.headD "")).sqlString =
      (if fi.required then "INNER " else "LEFT ") ++ "JOIN " ++
        quoteTableName relModel.tableName ++ " " ++
        quoteTableName (aliasAcc ++ sqlSep ++ relModel.tableName) ++ " ON " ++
        curTJ.aliasName ++ "." ++ "id" ++ "=" ++
        quoteTableName (aliasAcc ++ sqlSep ++ relModel.tableName) ++ "." ++
        jsonizePath relModel fi.reverseFK ++ " " := by
  constructor
  · rcases hft with hft | hft <;>
      simp [genJoinsLoop, hfi, hrn, hft, hrm, FieldType.IsFKRelationType]
  · cases hr : fi.required <;>
      simp [TableJoin.sqlString, TableJoin.tableName, TableJoin.joined,
        TableJoin.innerJoin, TableJoin.field, TableJoin.otherTable,
        TableJoin.otherField, TableJoin.aliasName, TableJoin.expr, hr]

/-- Witness for the amended C5 on the counterexample registry. -/
theorem C5_witness :
    genJoinsLoop
      [Model.mk "P" "p"
        [{ name := "Lines", json := "lines", fieldType := .one2Many,
           required := false, relatedModelName := some "L",
           reverseFK := "PId" }],
       Model.mk "L" "l"
        [{ name := "PId", json := "p_id", fieldType := .many2One,
           required := true, relatedModelName := some "P" }]]
      (Model.mk "P" "p"
        [{ name := "Lines", json := "lines", fieldType := .one2Many,
           required := false, relatedModelName := some "L",
           reverseFK := "PId" }])
      (TableJoin.mk "\"p\"" false false "" none "" "\"p\"" "lines")
      "p" ["lines"] =
      (genJoinsLoop
        [Model.mk "P" "p"
          [{ name := "Lines", json := "lines", fieldType := .one2Many,
             required := false, relatedModelName := some "L",
             reverseFK := "PId" }],
         Model.mk "L" "l"
          [{ name := "PId", json := "p_id", fieldType := .many2One,
             required := true, relatedModelName := some "P" }]]
        (Model.mk "L" "l"
          [{ name := "PId", json := "p_id", fieldType := .many2One,
             required := true, relatedModelName := some "P" }])
        (TableJoin.mk "\"l\"" true false "p_id"
          (some (TableJoin.mk "\"p\"" false false "" none "" "\"p\"" "lines"))
          "id" "\"p__l\"" "id")
        "p__l" []).map
        (fun l =>
          TableJoin.mk "\"l\"" true false "p_id"
            (some (TableJoin.mk "\"p\"" false false "" none "" "\"p\""
              "lines"))
            "id" "\"p__l\"" "id" :: l) :=
  (C5_o2m_join_amended
    [Model.mk "P" "p"
      [{ name := "Lines", json := "lines", fieldType := .one2Many,
         required := false, relatedModelName := some "L",
         reverseFK := "PId" }],
     Model.mk "L" "l"
      [{ name := "PId", json := "p_id", fieldType := .many2One,
         required := true, relatedModelName := some "P" }]]
    (Model.mk "P" "p"
      [{ name := "Lines", json := "lines", fieldType := .one2Many,
         required := false, relatedModelName := some "L",
         reverseFK := "PId" }])
    (TableJoin.mk "\"p\"" false false "" none "" "\"p\"" "lines")
    "p" "lines" []
    { name := "Lines", json := "lines", fieldType := .one2Many,
      required := false, relatedModelName := some "L", reverseFK := "PId" }
    (Model.mk "L" "l"
      [{ name := "PId", json := "p_id", fieldType := .many2One,
         required := true, relatedModelName := some "P" }])
    "L" (by decide) (Or.inl (by decide)) (by decide) (by decide)).1

/-! ### C7: join deduplication and alias assignment -/

/-- Spec-side reference for C7: first-occurrence deduplication of joins,
keyed by the chain alias (which encodes table and relation chain). -/
def dedupJoins (seen : List String) : List TableJoin → List TableJoin
  | [] => []
  | j :: rest =>
    if j.aliasName ∈ seen then dedupJoins seen rest
    else j :: dedupJoins (j.aliasName :: seen) rest

/-- Spec-side reference for C7: the i-th deduplicated alias is renamed to
the quoted synthetic alias Ti, except the first which keeps itself. -/
def assignAliases (start : Nat) : List TableJoin → List (String × String)
  | [] => []
  | j :: rest =>
    (j.aliasName,
      if start = 0 then j.aliasName
      else quoteTableName ("T" ++ toString start)) ::
    assignAliases (start + 1) rest

/-- Spec-side reference for C7: the FROM clause as the concatenation of the
join clauses. -/
def sqlConcat (js : List TableJoin) : String :=
  js.foldl (fun acc j => acc ++ j.sqlString) ""

/-- The tablesSQL state reached after emitting exactly the joins ds. -/
def TStateOf (ds : List TableJoin) : TState :=
  ⟨sqlConcat ds, assignAliases 0 ds, ds.length⟩

theorem assignAliases_keys (s : Nat) (ds : List TableJoin) (a : String) :
    mapHas (assignAliases s ds) a = true ↔
      a ∈ ds.map TableJoin.aliasName := by
  induction ds generalizing s with
  | nil => simp [assignAliases, mapHas, mapGet]
  | cons j rest ih =>
    have ih2 := ih (s + 1)
    simp only [mapHas] at ih2 ⊢
    cases h : j.aliasName == a with
    | true =>
      have heq : j.aliasName = a := eq_of_beq h
      simp [assignAliases, mapGet_cons, h, heq]
    | false =>
      have hne : a ≠ j.aliasName := by
        intro hc
        rw [hc] at h
        simp at h
      simp only [assignAliases, mapGet_cons, h, List.map_cons,
        List.mem_cons, Bool.false_eq_true, if_false]
      rw [ih2]
      simp [hne]

theorem sqlConcat_append_one (ds : List TableJoin) (j : TableJoin) :
    sqlConcat (ds ++ [j]) = sqlConcat ds ++ j.sqlString := by
  simp [sqlConcat, List.foldl_append]

theorem assignAliases_append_one (s : Nat) (ds : List TableJoin)
    (j : TableJoin) :
    assignAliases s (ds ++ [j]) = assignAliases s ds ++
      [(j.aliasName,
        if s + ds.length = 0 then j.aliasName
        else quoteTableName ("T" ++ toString (s + ds.length)))] := by
  induction ds generalizing s with
  | nil => simp [assignAliases]
  | cons x rest ih =>
    have harith : s + 1 + rest.length = s + (rest.length + 1) := by omega
    simp only [List.cons_append, assignAliases, List.length_cons,
      List.append_eq]
    rw [ih (s + 1), harith]

theorem mapSet_append_fresh {K V : Type} [BEq K] (m : List (K × V)) (k : K)
    (v : V) (h : mapHas m k = false) : mapSet m k v = m ++ [(k, v)] := by
  induction m with
  | nil => rfl
  | cons p rest ih =>
    by_cases hp : p.1 == k
    · exact absurd h (by simp [mapHas, mapGet_cons, hp])
    · have hr : mapHas rest k = false := by
        simpa [mapHas, mapGet_cons, hp] using h
      simp [mapSet, hp, ih hr]

theorem tablesSQLStep_TStateOf (ds : List TableJoin) (j : TableJoin) :
    (j.aliasName ∈ ds.map TableJoin.aliasName ∧
      tablesSQLStep (TStateOf ds) j = TStateOf ds) ∨
    (j.aliasName ∉ ds.map TableJoin.aliasName ∧
      tablesSQLStep (TStateOf ds) j = TStateOf (ds ++ [j])) := by
  by_cases h : j.aliasName ∈ ds.map TableJoin.aliasName
  · left
    refine ⟨h, ?_⟩
    have hh : mapHas (assignAliases 0 ds) j.aliasName = true :=
      (assignAliases_keys 0 ds j.aliasName).mpr h
    simp [tablesSQLStep, TStateOf, hh]
  · right
    refine ⟨h, ?_⟩
    have hh : mapHas (assignAliases 0 ds) j.aliasName = false := by
      cases hc : mapHas (assignAliases 0 ds) j.aliasName
      · rfl
      · exact absurd ((assignAliases_keys 0 ds j.aliasName).mp hc) h
    simp only [tablesSQLStep, TStateOf, hh, Bool.false_eq_true, if_neg,
      not_false_eq_true]
    rw [mapSet_append_fresh _ _ _ hh]
    rw [sqlConcat_append_one, assignAliases_append_one]
    rw [Nat.zero_add]
    simp [List.length_append]

theorem foldl_TStateOf (js ds : List TableJoin)
    (hnd : (ds.map TableJoin.aliasName).Nodup) :
    ∃ ds2, js.foldl tablesSQLStep (TStateOf ds) = TStateOf ds2 ∧
      (ds2.map TableJoin.aliasName).Nodup ∧ ds <+: ds2 := by
  induction js generalizing ds with
  | nil => exact ⟨ds, rfl, hnd, List.prefix_rfl⟩
  | cons j rest ih =>
    rcases tablesSQLStep_TStateOf ds j with ⟨_, hstep⟩ | ⟨hmem, hstep⟩
    · rcases ih ds hnd with ⟨ds2, heq, hnd2, hpre⟩
      exact ⟨ds2, by simpa [hstep] using heq, hnd2, hpre⟩
    · have hnd1 : ((ds ++ [j]).map TableJoin.aliasName).Nodup := by
        simp only [List.map_append, List.map_cons, List.map_nil]
        exact List.Nodup.append hnd (List.nodup_singleton _)
          (by simpa [List.disjoint_singleton] using hmem)
      rcases ih (ds ++ [j]) hnd1 with ⟨ds2, heq, hnd2, hpre⟩
      exact ⟨ds2, by simpa [hstep] using heq, hnd2,
        ((List.prefix_append ds [j]).trans hpre)⟩

theorem tablesSQLLoop_TStateOf (reg : Registry) (root : Model)
    (fes : List (List String)) (ds : List TableJoin)
    (hnd : (ds.map TableJoin.aliasName).Nodup) (st2 : TState)
    (h : tablesSQLLoop reg root (TStateOf ds) fes = some st2) :
    ∃ ds2, st2 = TStateOf ds2 ∧ (ds2.map TableJoin.aliasName).Nodup ∧
      ds <+: ds2 := by
  induction fes generalizing ds with
  | nil =>
    refine ⟨ds, ?_, hnd, List.prefix_rfl⟩
    simpa [tablesSQLLoop] using h.symm
  | cons f rest ih =>
    cases hg : generateTableJoins reg root f with
    | none =>
      simp only [tablesSQLLoop, hg] at h
      exact Option.noConfusion h
    | some js =>
      simp only [tablesSQLLoop, hg] at h
      rcases foldl_TStateOf js ds hnd with ⟨ds1, heq, hnd1, hpre1⟩
      rw [heq] at h
      rcases ih ds1 hnd1 h with ⟨ds2, h2, hnd2, hpre2⟩
      exact ⟨ds2, h2, hnd2, hpre1.trans hpre2⟩

theorem step_has_mono (st : TState) (j : TableJoin) (a : String)
    (h : mapHas st.joinsMap a = true) :
    mapHas (tablesSQLStep st j).joinsMap a = true := by
  simp only [tablesSQLStep]
  by_cases hj : mapHas st.joinsMap j.aliasName
  · simpa [hj] using h
  · simp only [hj, Bool.false_eq_true, if_neg, not_false_eq_true]
    exact mapHas_mapSet_mono _ _ _ _ h

theorem foldl_has_mono (js : List TableJoin) (st : TState) (a : String)
    (h : mapHas st.joinsMap a = true) :
    mapHas ((js.foldl tablesSQLStep st).joinsMap) a = true := by
  induction js generalizing st with
  | nil => exact h
  | cons j rest ih => exact ih _ (step_has_mono st j a h)

theorem foldl_has_all (js : List TableJoin) (st : TState) :
    ∀ j ∈ js, mapHas ((js.foldl tablesSQLStep st).joinsMap) j.aliasName =
      true := by
  induction js generalizing st with
  | nil => intro j hj; exact absurd hj (List.not_mem_nil j)
  | cons x rest ih =>
    intro j hj
    rcases List.mem_cons.mp hj with rfl | hj2
    · rw [List.foldl_cons]
      apply foldl_has_mono
      simp only [tablesSQLStep]
      by_cases hx : mapHas st.joinsMap j.aliasName
      · simp [hx]
      · simp only [hx, Bool.false_eq_true, if_neg, not_false_eq_true]
        simp [mapHas, mapGet_mapSet_same]
    · rw [List.foldl_cons]
      exact ih _ j hj2

theorem foldl_id_of_has (js : List TableJoin) (st : TState)
    (h : ∀ j ∈ js, mapHas st.joinsMap j.aliasName = true) :
    js.foldl tablesSQLStep st = st := by
  induction js with
  | nil => rfl
  | cons j rest ih =>
    have hj := h j (List.mem_cons_self j rest)
    have hstep : tablesSQLStep st j = st := by simp [tablesSQLStep, hj]
    rw [List.foldl_cons, hstep]
    exact ih (fun x hx => h x (List.mem_cons_of_mem j hx))

theorem generateTableJoins_head (reg : Registry) (root : Model)
    (f : List String) (js : List TableJoin)
    (h : generateTableJoins reg root f = some js) :
    ∃ tl, js = TableJoin.mk (quoteTableName root.tableName) false false ""
      none "" (quoteTableName root.tableName) (f.headD "") :: tl := by
  simp only [generateTableJoins] at h
  cases hg : genJoinsLoop reg root
      (TableJoin.mk (quoteTableName root.tableName) false false "" none ""
        (quoteTableName root.tableName) (f.headD "")) root.tableName f with
  | none => rw [hg] at h; simp at h
  | some tl =>
    rw [hg] at h
    simp only [Option.map_some', Option.some.injEq] at h
    exact ⟨tl, h.symm⟩

/-- C7: within one query, tablesSQL emits a FROM clause that is the
concatenation of a join list whose chain aliases are pairwise distinct
(each distinct join appears at most once), together with the alias map that
renames the i-th distinct chain alias to the quoted synthetic alias Ti
while the very first — the root table — keeps its own name; processing the
same field path twice yields exactly the result of processing it once, so
repeated resolution yields identical alias assignments. -/
theorem C7_tablesSQL_dedup_aliases (reg : Registry) (root : Model) :
    (∀ (fes : List (List String)) (r : String) (m : List (String × String)),
      tablesSQL reg root fes = some (r, m) →
      ∃ ds : List TableJoin, r = sqlConcat ds ∧ m = assignAliases 0 ds ∧
        (ds.map TableJoin.aliasName).Nodup) ∧
    (∀ (e : List String) (rest : List (List String)),
      tablesSQL reg root (e :: e :: rest) = tablesSQL reg root (e :: rest)) ∧
    (∀ (f : List String) (rest : List (List String)) (r : String)
      (m : List (String × String)),
      tablesSQL reg root (f :: rest) = some (r, m) →
      mapGet m (quoteTableName root.tableName) =
        some (quoteTableName root.tableName)) := by
  refine ⟨?_, ?_, ?_⟩
  · intro fes r m h
    simp only [tablesSQL] at h
    cases hl : tablesSQLLoop reg root ⟨"", [], 0⟩ fes with
    | none => rw [hl] at h; simp at h
    | some st2 =>
      rw [hl] at h
      have h0 : (⟨"", [], 0⟩ : TState) = TStateOf [] := rfl
      rw [h0] at hl
      rcases tablesSQLLoop_TStateOf reg root fes [] (by simp) st2 hl with
        ⟨ds, rfl, hnd, _⟩
      simp only [Option.map_some', Option.some.injEq] at h
      exact ⟨ds, congrArg Prod.fst h.symm, congrArg Prod.snd h.symm, hnd⟩
  · intro e rest
    cases hg : generateTableJoins reg root e with
    | none => simp [tablesSQL, tablesSQLLoop, hg]
    | some js =>
      have hid : js.foldl tablesSQLStep
          (js.foldl tablesSQLStep ⟨"", [], 0⟩) =
          js.foldl tablesSQLStep ⟨"", [], 0⟩ :=
        foldl_id_of_has js _ (foldl_has_all js _)
      simp only [tablesSQL, tablesSQLLoop, hg]
      rw [hid]
  · intro f rest r m h
    cases hg : generateTableJoins reg root f with
    | none =>
      simp only [tablesSQL, tablesSQLLoop, hg] at h
      exact Option.noConfusion h
    | some js =>
      simp only [tablesSQL, tablesSQLLoop, hg] at h
      rcases generateTableJoins_head reg root f js hg with ⟨tl, rfl⟩
      set rj : TableJoin := TableJoin.mk (quoteTableName root.tableName)
        false false "" none "" (quoteTableName root.tableName) (f.headD "")
        with hrj
      have hfirst : (rj :: tl).foldl tablesSQLStep (TStateOf []) =
          tl.foldl tablesSQLStep (TStateOf [rj]) := by
        rcases tablesSQLStep_TStateOf [] rj with ⟨hmem, _⟩ | ⟨_, hstep⟩
        · exact absurd hmem (by simp)
        · rw [List.foldl_cons, hstep]
          rfl
      have h0 : (⟨"", [], 0⟩ : TState) = TStateOf [] := rfl
      rw [h0, hfirst] at h
      rcases foldl_TStateOf tl [rj] (by simp) with ⟨ds1, heq, hnd1, hpre1⟩
      rw [heq] at h
      cases hL : tablesSQLLoop reg root (TStateOf ds1) rest with
      | none =>
        rw [hL] at h
        simp at h
      | some st2 =>
        rw [hL] at h
        rcases tablesSQLLoop_TStateOf reg root rest ds1 hnd1 st2 hL with
          ⟨ds2, rfl, hnd2, hpre2⟩
        rcases hpre1.trans hpre2 with ⟨tail2, htail⟩
        simp only [Option.map_some', Option.some.injEq] at h
        have hm : m = assignAliases 0 ds2 := by
          have h2 := congrArg Prod.snd h
          simpa [TStateOf] using h2.symm
        rw [hm, ← htail]
        simp [assignAliases, mapGet_cons, hrj, TableJoin.aliasName]
/-- Witness for C7: a single-path query on a bare root model keeps the root
table's quoted name as its own alias in the substitution map. -/
theorem C7_witness :
    mapGet [("\"m\"", "\"m\"")] "\"m\"" = some "\"m\"" :=
  (C7_tablesSQL_dedup_aliases [] (Model.mk "M" "m" [])).2.2 [] []
    "\"m\" \"m\" " [("\"m\"", "\"m\"")] (by decide)

/-! ### C10: the id binding of cache entries -/

/-- The C10 invariant: every live cache entry binds the id key to the id of
its cacheRef. -/
def cacheIdInv (c : cache) : Prop :=
  ∀ ref fm, mapGet c.data ref = some fm →
    mapGet fm "id" = some (Value.vInt ref.id)

/-- Schema side condition: no reverse-FK storage column is named id. -/
def regNoIdFK (reg : Registry) : Prop :=
  ∀ m ∈ reg, ∀ f ∈ m.fields, f.jsonReverseFK ≠ "id"

theorem cacheIdInv_newCache : cacheIdInv newCache := by
  intro ref fm h
  simp [newCache, mapGet] at h

/-- Re-storing an entry with a key other than id keeps the invariant and
entry presence. -/
theorem setKey_inv (c2 : cache) (ref : cacheRef) (jsonName : String)
    (v : Value) (hinv : cacheIdInv c2) (hhas : mapHas c2.data ref = true)
    (hjson : jsonName ≠ "id") :
    cacheIdInv (cache.setData c2 (mapSet c2.data ref
      (mapSet ((mapGet c2.data ref).getD []) jsonName v))) ∧
    (∀ r, mapHas c2.data r = true → mapHas (mapSet c2.data ref
      (mapSet ((mapGet c2.data ref).getD []) jsonName v)) r = true) := by
  rcases Option.isSome_iff_exists.mp (by simpa [mapHas] using hhas) with
    ⟨fm, hfm⟩
  constructor
  · intro r fm2 hr
    simp only [cache.setData] at hr
    by_cases hreq : r = ref
    · subst hreq
      simp only [hfm, Option.getD_some] at hr
      rw [mapGet_mapSet_same] at hr
      have hfm2 : fm2 = mapSet fm jsonName v := by
        simpa using hr.symm
      subst hfm2
      rw [mapGet_mapSet_other fm jsonName "id" v
        (fun hc => hjson (eq_of_beq hc).symm)]
      exact hinv r fm hfm
    · rw [mapGet_mapSet_other c2.data ref r _
        (fun hc => hreq (eq_of_beq hc))] at hr
      exact hinv r fm2 hr
  · intro r hr
    exact mapHas_mapSet_mono _ _ _ _ hr

/-- The entry-creation step of updateEntryByRef establishes the invariant
and makes the target entry present. -/
theorem ensure_inv (c : cache) (ref : cacheRef) (hinv : cacheIdInv c) :
    cacheIdInv (if mapHas c.data ref = true then c else
      cache.setData c (mapSet c.data ref [("id", Value.vInt ref.id)])) ∧
    mapHas (if mapHas c.data ref = true then c else
      cache.setData c (mapSet c.data ref
        [("id", Value.vInt ref.id)])).data ref = true ∧
    (∀ r, mapHas c.data r = true →
      mapHas (if mapHas c.data ref = true then c else
        cache.setData c (mapSet c.data ref
          [("id", Value.vInt ref.id)])).data r = true) := by
  by_cases hhas : mapHas c.data ref = true
  · simp only [hhas, if_true]
    exact ⟨hinv, trivial, fun r h => h⟩
  · have hb : mapHas c.data ref = false := by
      cases hc : mapHas c.data ref
      · rfl
      · exact absurd hc hhas
    simp only [hb, Bool.false_eq_true, if_false, cache.setData]
    refine ⟨?_, ?_, ?_⟩
    · intro r fm hr
      by_cases hreq : r = ref
      · subst hreq
        rw [mapGet_mapSet_same] at hr
        have : fm = [("id", Value.vInt r.id)] := by simpa using hr.symm
        subst this
        simp [mapGet]
      · rw [mapGet_mapSet_other c.data ref r _
          (fun hc => hreq (eq_of_beq hc))] at hr
        exact hinv r fm hr
    · simp [mapHas, mapGet_mapSet_same]
    · intro r hr
      exact mapHas_mapSet_mono _ _ _ _ hr

theorem findModel_mem (reg : Registry) (n : String) (m : Model)
    (h : findModel reg n = some m) : m ∈ reg :=
  List.mem_of_find?_eq_some h

theorem MustGet_mem (m : Model) (k : String) (f : Field)
    (h : m.MustGet k = some f) : f ∈ m.fields :=
  List.mem_of_find?_eq_some h

/-- updateEntryByRef preserves the id-binding invariant and the presence of
every entry, provided the written json name is not id and no reverse-FK
column of the schema is named id. -/
theorem updateEntryByRef_inv :
    ∀ (fuel : Nat) (reg : Registry) (c : cache) (ref : cacheRef)
      (jsonName : String) (v : Value) (c2 : cache),
    regNoIdFK reg → cacheIdInv c → jsonName ≠ "id" →
    cache.updateEntryByRef fuel reg c ref jsonName v = some c2 →
    cacheIdInv c2 ∧
      (∀ r, mapHas c.data r = true → mapHas c2.data r = true) := by
  intro fuel
  induction fuel with
  | zero =>
    intro reg c ref jsonName v c2 _ _ _ h
    exact Option.noConfusion h
  | succ fuel ih =>
    intro reg c ref jsonName v c2 hreg hinv hjson h
    simp only [cache.updateEntryByRef] at h
    obtain ⟨hinvp, hhasp, hmonop⟩ := ensure_inv c ref hinv
    revert h hinvp hhasp hmonop
    generalize (if mapHas c.data ref = true then c else
      cache.setData c (mapSet c.data ref [("id", Value.vInt ref.id)])) = cp
    intro h hinvp hhasp hmonop
    suffices hsuf : cacheIdInv c2 ∧
        (∀ r, mapHas cp.data r = true → mapHas c2.data r = true) by
      exact ⟨hsuf.1, fun r hr => hsuf.2 r (hmonop r hr)⟩
    cases hfm : findModel reg ref.model with
    | none =>
      rw [hfm] at h
      exact Option.noConfusion h
    | some rmod =>
      rw [hfm] at h
      simp only at h
      cases hfi : rmod.MustGet jsonName with
      | none =>
        rw [hfi] at h
        exact Option.noConfusion h
      | some fi =>
        rw [hfi] at h
        simp only at h
        have hfk : fi.jsonReverseFK ≠ "id" :=
          hreg rmod (findModel_mem reg ref.model rmod hfm) fi
            (MustGet_mem rmod jsonName fi hfi)
        have hfold : ∀ (relMI : Model) (vv : Value) (ids : List Int)
            (cc cN : cache), cacheIdInv cc →
            ids.foldlM (fun cc i => cache.updateEntryByRef fuel reg cc
              ⟨relMI.name, i⟩ fi.jsonReverseFK vv) cc = some cN →
            cacheIdInv cN ∧
              (∀ r, mapHas cc.data r = true → mapHas cN.data r = true) := by
          intro relMI vv ids
          induction ids with
          | nil =>
            intro cc cN hinvc heq
            have hc : cc = cN := by simpa [List.foldlM] using heq
            subst hc
            exact ⟨hinvc, fun r hr => hr⟩
          | cons i rest ihl =>
            intro cc cN hinvc heq
            rw [List.foldlM_cons] at heq
            cases hstep : cache.updateEntryByRef fuel reg cc
                ⟨relMI.name, i⟩ fi.jsonReverseFK vv with
            | none =>
              rw [hstep] at heq
              exact Option.noConfusion heq
            | some cc1 =>
              rw [hstep] at heq
              have heq2 : rest.foldlM (fun cc i =>
                  cache.updateEntryByRef fuel reg cc ⟨relMI.name, i⟩
                    fi.jsonReverseFK vv) cc1 = some cN := heq
              obtain ⟨hinv1, hmono1⟩ := ih reg cc ⟨relMI.name, i⟩
                fi.jsonReverseFK vv cc1 hreg hinvc hfk hstep
              obtain ⟨hinv2, hmono2⟩ := ihl cc1 cN hinv1 heq2
              exact ⟨hinv2, fun r hr => hmono2 r (hmono1 r hr)⟩
        cases hft : fi.fieldType
        case one2Many =>
          rw [hft] at h
          cases hv : v <;> rw [hv] at h <;>
            try exact Option.noConfusion h
          case vInts ids =>
            cases hrel :
                findModel reg (fi.relatedModelName.getD "") with
            | none =>
              rw [hrel] at h
              exact Option.noConfusion h
            | some relMI =>
              rw [hrel] at h
              simp only at h
              cases hfd : ids.foldlM (fun cc i =>
                  cache.updateEntryByRef fuel reg cc ⟨relMI.name, i⟩
                    fi.jsonReverseFK (.vInt ref.id)) cp with
              | none =>
                rw [hfd] at h
                exact Option.noConfusion h
              | some cN =>
                rw [hfd] at h
                simp only [Option.some.injEq] at h
                obtain ⟨hinvN, hmonoN⟩ :=
                  hfold relMI (.vInt ref.id) ids cp cN hinvp hfd
                have hhasN : mapHas cN.data ref = true := hmonoN ref hhasp
                obtain ⟨hinv2, hmono2⟩ :=
                  setKey_inv cN ref jsonName (.vBool true) hinvN hhasN hjson
                subst h
                exact ⟨hinv2, fun r hr => hmono2 r (hmonoN r hr)⟩
        case rev2One =>
          rw [hft] at h
          cases hv : v <;> rw [hv] at h <;>
            try exact Option.noConfusion h
          case vInt rid =>
            cases hrel :
                findModel reg (fi.relatedModelName.getD "") with
            | none =>
              rw [hrel] at h
              exact Option.noConfusion h
            | some relMI =>
              rw [hrel] at h
              simp only at h
              cases hrec : cache.updateEntryByRef fuel reg cp
                  ⟨relMI.name, rid⟩ fi.jsonReverseFK (.vInt ref.id) with
              | none =>
                rw [hrec] at h
                exact Option.noConfusion h
              | some cN =>
                rw [hrec] at h
                simp only [Option.some.injEq] at h
                obtain ⟨hinvN, hmonoN⟩ := ih reg cp ⟨relMI.name, rid⟩
                  fi.jsonReverseFK (.vInt ref.id) cN hreg hinvp hfk hrec
                have hhasN : mapHas cN.data ref = true := hmonoN ref hhasp
                obtain ⟨hinv2, hmono2⟩ :=
                  setKey_inv cN ref jsonName (.vBool true) hinvN hhasN hjson
                subst h
                exact ⟨hinv2, fun r hr => hmono2 r (hmonoN r hr)⟩
        case many2Many =>
          rw [hft] at h
          cases hv : v <;> rw [hv] at h <;>
            try exact Option.noConfusion h
          case vInts ids =>
            simp only [Option.some.injEq] at h
            have hdata : ((cp.removeM2MLinks fi ref.id).addM2MLink fi ref.id
                ids).data = cp.data := rfl
            have hinvM : cacheIdInv ((cp.removeM2MLinks fi ref.id).addM2MLink
                fi ref.id ids) := by
              intro r fm hr
              rw [hdata] at hr
              exact hinvp r fm hr
            have hhasM : mapHas ((cp.removeM2MLinks fi ref.id).addM2MLink
                fi ref.id ids).data ref = true := by
              rw [hdata]
              exact hhasp
            obtain ⟨hinv2, hmono2⟩ := setKey_inv _ ref jsonName (.vBool true)
              hinvM hhasM hjson
            subst h
            refine ⟨hinv2, fun r hr => ?_⟩
            apply hmono2
            rw [hdata]
            exact hr
        all_goals (rw [hft] at h
                   simp only [Option.some.injEq] at h
                   obtain ⟨hinv2, hmono2⟩ :=
                     setKey_inv cp ref jsonName v hinvp hhasp hjson
                   subst h
                   exact ⟨hinv2, hmono2⟩)

theorem mapGet_mapDel_other {K V : Type} [BEq K] [LawfulBEq K]
    (m : List (K × V)) (k k2 : K) (h : ¬(k2 == k)) :
    mapGet (mapDel m k) k2 = mapGet m k2 := by
  induction m with
  | nil => simp [mapGet, mapDel]
  | cons p rest ih =>
    by_cases hp : p.1 == k
    · have hpk : p.1 = k := eq_of_beq hp
      have hne : ¬(p.1 == k2) := fun hc =>
        h (beq_of_eq ((eq_of_beq hc).symm.trans hpk))
      simpa [mapDel, List.filter_cons, hp, mapGet_cons, hne] using ih
    · have hstep : mapDel (p :: rest) k = p :: mapDel rest k := by
        simp [mapDel, List.filter_cons, hp]
      rw [hstep, mapGet_cons, mapGet_cons, ih]

/-- A resolved path reference carries the last segment of the path as its
field name. -/
theorem getRelatedRef_fname (reg : Registry) (c : cache) :
    ∀ (path : List String) (mi : Model) (id : Int) (ref2 : cacheRef)
      (f2 : String),
    cache.getRelatedRef reg c mi id path = some (.ok ref2 f2) →
    path.getLast? = some f2 := by
  intro path
  induction path with
  | nil =>
    intro mi id ref2 f2 h
    simp [cache.getRelatedRef] at h
  | cons e rest ih =>
    intro mi id ref2 f2 h
    cases rest with
    | nil =>
      simp only [cache.getRelatedRef, Option.some.injEq,
        RefRes.ok.injEq] at h
      rw [h.2]
      rfl
    | cons r rest2 =>
      simp only [cache.getRelatedRef] at h
      cases hgm : getRelatedModelInfo reg mi e with
      | none =>
        rw [hgm] at h
        exact Option.noConfusion h
      | some relMI =>
        rw [hgm] at h
        simp only at h
        cases hgb : cache.getByRef reg c ⟨mi.name, id⟩ e with
        | none =>
          rw [hgb] at h
          exact Option.noConfusion h
        | some vv =>
          rw [hgb] at h
          cases vv with
          | vInt fkID =>
            simp only at h
            rw [List.getLast?_cons_cons]
            exact ih relMI fkID ref2 f2 h
          | vNull => simp at h
          | vBool b => simp at h
          | vStr s => simp at h
          | vInts l => simp at h
          | vSet s => simp at h

/-- updateEntry on a path not ending in id keeps the invariant and entry
presence. -/
theorem updateEntry_inv (fuel : Nat) (reg : Registry) (c : cache) (mi : Model)
    (id : Int) (path : List String) (v : Value) (c2 : cache)
    (hreg : regNoIdFK reg) (hinv : cacheIdInv c)
    (hlast : path.getLast? ≠ some "id")
    (h : cache.updateEntry fuel reg c mi id path v = some c2) :
    cacheIdInv c2 ∧
      (∀ r, mapHas c.data r = true → mapHas c2.data r = true) := by
  simp only [cache.updateEntry] at h
  cases hrr : cache.getRelatedRef reg c mi id path with
  | none =>
    rw [hrr] at h
    exact Option.noConfusion h
  | some res =>
    rw [hrr] at h
    cases res with
    | err =>
      simp only [Option.some.injEq] at h
      subst h
      exact ⟨hinv, fun r hr => hr⟩
    | ok ref2 f2 =>
      simp only at h
      have hf2 : f2 ≠ "id" := by
        intro hc
        apply hlast
        rw [getRelatedRef_fname reg c path mi id ref2 f2 hrr, hc]
      exact updateEntryByRef_inv fuel reg c ref2 f2 v c2 hreg hinv hf2 h

/-- The addRecord entry loop keeps the invariant and entry presence when no
entry path ends in id. -/
theorem addRecordLoop_inv (fuel : Nat) (reg : Registry) (mi : Model)
    (id : Int) (hreg : regNoIdFK reg) :
    ∀ (entries : List (List String × Value)) (c c2 : cache),
    cacheIdInv c → (∀ p ∈ entries, (p : List String × Value).1.getLast? ≠
      some "id") →
    cache.addRecordLoop fuel reg mi id c entries = some c2 →
    cacheIdInv c2 ∧
      (∀ r, mapHas c.data r = true → mapHas c2.data r = true) := by
  intro entries
  induction entries with
  | nil =>
    intro c c2 hinv _ h
    have hc : c = c2 := by simpa [cache.addRecordLoop] using h
    subst hc
    exact ⟨hinv, fun r hr => hr⟩
  | cons p rest ih =>
    rcases p with ⟨pp, pv⟩
    intro c c2 hinv hlast h
    simp only [cache.addRecordLoop] at h
    cases hstep : cache.updateEntry fuel reg c mi id pp pv with
    | none =>
      rw [hstep] at h
      exact Option.noConfusion h
    | some c1 =>
      rw [hstep] at h
      obtain ⟨hinv1, hmono1⟩ := updateEntry_inv fuel reg c mi id pp pv c1
        hreg hinv (hlast (pp, pv) (List.mem_cons_self (pp, pv) rest)) hstep
      obtain ⟨hinv2, hmono2⟩ := ih c1 c2 hinv1
        (fun q hq => hlast q (List.mem_cons_of_mem (pp, pv) hq)) h
      exact ⟨hinv2, fun r hr => hmono2 r (hmono1 r hr)⟩

/-- addRecord keeps the invariant and entry presence when no path of the
written field map ends in id (the reordering buckets only permute the
entries). -/
theorem addRecord_inv (fuel : Nat) (reg : Registry) (c : cache) (mi : Model)
    (id : Int) (fMap : List (List String × Value)) (c2 : cache)
    (hreg : regNoIdFK reg) (hinv : cacheIdInv c)
    (hlast : ∀ p ∈ fMap, (p : List String × Value).1.getLast? ≠ some "id")
    (h : cache.addRecord fuel reg c mi id fMap = some c2) :
    cacheIdInv c2 ∧
      (∀ r, mapHas c.data r = true → mapHas c2.data r = true) := by
  simp only [cache.addRecord] at h
  refine addRecordLoop_inv fuel reg mi id hreg _ c c2 hinv ?_ h
  intro p hp
  have hpmem : p ∈ fMap := by
    rcases List.mem_flatten.mp hp with ⟨l, hl, hpl⟩
    rcases List.mem_map.mp hl with ⟨i, _, hli⟩
    rw [← hli] at hpl
    exact List.mem_of_mem_filter hpl
  exact hlast p hpmem

/-- Deleting a key other than id from an entry keeps the invariant and
entry presence. -/
theorem delKey_inv (c : cache) (ref : cacheRef) (fieldName : String)
    (hinv : cacheIdInv c) (hfn : fieldName ≠ "id") :
    cacheIdInv (if mapHas c.data ref = true then
      cache.setData c (mapSet c.data ref
        (mapDel ((mapGet c.data ref).getD []) fieldName)) else c) ∧
    (∀ r, mapHas c.data r = true →
      mapHas (if mapHas c.data ref = true then
        cache.setData c (mapSet c.data ref
          (mapDel ((mapGet c.data ref).getD []) fieldName)) else c).data
        r = true) := by
  by_cases hhas : mapHas c.data ref = true
  · simp only [hhas, if_true]
    rcases Option.isSome_iff_exists.mp (by simpa [mapHas] using hhas) with
      ⟨fm, hfm⟩
    constructor
    · intro r fm2 hr
      simp only [cache.setData] at hr
      by_cases hreq : r = ref
      · subst hreq
        simp only [hfm, Option.getD_some] at hr
        rw [mapGet_mapSet_same] at hr
        have hfm2 : fm2 = mapDel fm fieldName := by simpa using hr.symm
        subst hfm2
        rw [mapGet_mapDel_other fm fieldName "id"
          (fun hc => hfn (eq_of_beq hc).symm)]
        exact hinv r fm hfm
      · rw [mapGet_mapSet_other c.data ref r _
          (fun hc => hreq (eq_of_beq hc))] at hr
        exact hinv r fm2 hr
    · intro r hr
      exact mapHas_mapSet_mono _ _ _ _ hr
  · have hb : mapHas c.data ref = false := by
      cases hc : mapHas c.data ref
      · rfl
      · exact absurd hc hhas
    simp only [hb, Bool.false_eq_true, if_false]
    exact ⟨hinv, fun r hr => hr⟩

/-- removeEntry on a field other than id keeps the invariant and entry
presence. -/
theorem removeEntry_inv (reg : Registry) (c : cache) (mi : Model) (id : Int)
    (fieldName : String) (c2 : cache) (hinv : cacheIdInv c)
    (hfn : fieldName ≠ "id")
    (h : cache.removeEntry reg c mi id fieldName = some c2) :
    cacheIdInv c2 ∧
      (∀ r, mapHas c.data r = true → mapHas c2.data r = true) := by
  simp only [cache.removeEntry] at h
  cases hchk : cache.checkIfInCache reg c mi [id] [[fieldName]] with
  | none =>
    rw [hchk] at h
    exact Option.noConfusion h
  | some b =>
    rw [hchk] at h
    cases b with
    | false =>
      simp only [Option.some.injEq] at h
      subst h
      exact ⟨hinv, fun r hr => hr⟩
    | true =>
      simp only at h
      obtain ⟨hinvd, hmonod⟩ := delKey_inv c ⟨mi.name, id⟩ fieldName hinv hfn
      cases hfi : mi.MustGet fieldName with
      | none =>
        rw [hfi] at h
        exact Option.noConfusion h
      | some fi =>
        rw [hfi] at h
        simp only at h
        by_cases hm2m : (fi.fieldType == FieldType.many2Many) = true
        · rw [if_pos hm2m] at h
          simp only [Option.some.injEq] at h
          subst h
          refine ⟨?_, ?_⟩
          · intro r fm hr
            rw [removeM2MLinks_data] at hr
            exact hinvd r fm hr
          · intro r hr
            rw [removeM2MLinks_data]
            exact hmonod r hr
        · rw [if_neg hm2m] at h
          simp only [Option.some.injEq] at h
          subst h
          exact ⟨hinvd, hmonod⟩

/-- A two-field schema used to exercise the id binding. -/
def C10reg : Registry :=
  [{ name := "M", tableName := "m",
     fields := [{ name := "ID", json := "id", fieldType := .integer,
                  required := true },
                { name := "Name", json := "name", fieldType := .char }] }]

/-- C10: the claim as frozen fails — no cache operation may touch the id
binding — because updateEntryByRef invoked with the json name id overwrites
the binding while the entry exists: after caching record 1 of model M, a
by-ref update of field id to 2 leaves the entry present with its id key
bound to 2, no longer the cacheRef id 1. -/
theorem C10_counterexample :
    ((cache.updateEntryByRef 2 C10reg newCache ⟨"M", 1⟩ "name"
        (Value.vStr "x")).map (fun c1 =>
          (mapGet ((mapGet c1.data ⟨"M", 1⟩).getD []) "id",
           (cache.updateEntryByRef 2 C10reg c1 ⟨"M", 1⟩ "id"
              (Value.vInt 2)).map (fun c2 =>
             (mapHas c2.data ⟨"M", 1⟩,
              mapGet ((mapGet c2.data ⟨"M", 1⟩).getD []) "id"))))) =
      some (some (Value.vInt 1), some (true, some (Value.vInt 2))) := by
  decide

/-- C10 (amended): every entry of the cache data map binds the key id to
the id of its cacheRef: the empty cache satisfies the invariant, every
operation creates a missing target entry with exactly that binding, and
updateEntryByRef, updateEntry, addRecord and removeEntry all preserve the
invariant — and the presence of every existing entry — provided the
written or removed field (for paths, the last segment) is not id itself
and no reverse-FK storage column of the schema is named id.  Without that
proviso the claim fails: writing the id field overwrites the binding and
removing it deletes it. -/
theorem C10_id_binding_amended (reg : Registry) (hreg : regNoIdFK reg) :
    cacheIdInv newCache ∧
    (∀ (fuel : Nat) (c : cache) (ref : cacheRef) (jsonName : String)
        (v : Value) (c2 : cache), cacheIdInv c → jsonName ≠ "id" →
      cache.updateEntryByRef fuel reg c ref jsonName v = some c2 →
      cacheIdInv c2 ∧
        ∀ r, mapHas c.data r = true → mapHas c2.data r = true) ∧
    (∀ (fuel : Nat) (c : cache) (mi : Model) (id : Int)
        (path : List String) (v : Value) (c2 : cache), cacheIdInv c →
      path.getLast? ≠ some "id" →
      cache.updateEntry fuel reg c mi id path v = some c2 →
      cacheIdInv c2 ∧
        ∀ r, mapHas c.data r = true → mapHas c2.data r = true) ∧
    (∀ (fuel : Nat) (c : cache) (mi : Model) (id : Int)
        (fMap : List (List String × Value)) (c2 : cache), cacheIdInv c →
      (∀ p ∈ fMap, (p : List String × Value).1.getLast? ≠ some "id") →
      cache.addRecord fuel reg c mi id fMap = some c2 →
      cacheIdInv c2 ∧
        ∀ r, mapHas c.data r = true → mapHas c2.data r = true) ∧
    (∀ (c : cache) (mi : Model) (id : Int) (fieldName : String)
        (c2 : cache), cacheIdInv c → fieldName ≠ "id" →
      cache.removeEntry reg c mi id fieldName = some c2 →
      cacheIdInv c2 ∧
        ∀ r, mapHas c.data r = true → mapHas c2.data r = true) := by
  refine ⟨cacheIdInv_newCache, ?_, ?_, ?_, ?_⟩
  · intro fuel c ref jsonName v c2 hinv hj h
    exact updateEntryByRef_inv fuel reg c ref jsonName v c2 hreg hinv hj h
  · intro fuel c mi id path v c2 hinv hl h
    exact updateEntry_inv fuel reg c mi id path v c2 hreg hinv hl h
  · intro fuel c mi id fMap c2 hinv hl h
    exact addRecord_inv fuel reg c mi id fMap c2 hreg hinv hl h
  · intro c mi id fieldName c2 hinv hf h
    exact removeEntry_inv reg c mi id fieldName c2 hinv hf h

theorem C10_witness :
    cacheIdInv
      ⟨[(⟨"M", 1⟩, [("id", Value.vInt 1), ("name", Value.vStr "x")])],
        fun _ => ∅⟩ :=
  ((C10_id_binding_amended C10reg
      (by simp only [regNoIdFK]; decide)).2.1 2 newCache ⟨"M", 1⟩
    "name" (Value.vStr "x") _ cacheIdInv_newCache (by decide) rfl).1

end Doxa
